import Mathlib

/-!
# Port → origin-IP association map (`ip-map.c`)

A shallow embedding of the shared-memory association map and of the
query-connection handler, followed by theorems about them.

The kernel objects the C code manipulates are made explicit:

* the live System V shared-memory segments are an association list
  `Shm` from segment identifier to the `map_t` record stored in it;
* the semaphore is its current value `semval`;
* the identifier `shmget` hands out is an argument of the operation
  that calls it, so every theorem holds for every allocator;
* the results of the `read`/`write` system calls are scripts consumed
  one entry per call.
-/

namespace IpMap

/-! ## Shared memory -/

/-- The record `struct map` stored in each segment: `uint16_t port`,
`uint32_t ip`, `int next` (a segment identifier, `-1` for none). -/
structure map_t where
  port : Nat
  ip : Nat
  next : Int
deriving DecidableEq, Repr

/-- Live shared-memory segments: identifier and contents. -/
abbrev Shm := List (Int × map_t)

/-- Result of `shmat(id, NULL, 0)` followed by a read of the record: `none`
when no live segment has this identifier (the C call returns `(void*)-1`
and the following dereference faults). -/
def shmat : Shm → Int → Option map_t
  | [], _ => none
  | (i, m) :: rest, id => if i = id then some m else shmat rest id

/-- Store through an attached pointer: the record of segment `id` becomes `v`. -/
def shm_write : Shm → Int → map_t → Shm
  | [], _, _ => []
  | (i, m) :: rest, id, v =>
    if i = id then (i, v) :: rest else (i, m) :: shm_write rest id v

/-- Effect of `shmctl(id, IPC_RMID, NULL)` on a segment nobody is attached to:
the segment is destroyed. -/
def shmctl_rmid (segs : Shm) (id : Int) : Shm :=
  segs.filter (fun e => decide (e.1 ≠ id))

/-- The process globals `ip_map_id` and `semid`, the value of the
semaphore, and the live segments. -/
structure State where
  ip_map_id : Int
  semid : Int
  semval : Nat
  segs : Shm
deriving DecidableEq, Repr

/-- Outcome of a loop or of a straight-line block working on the segments. -/
inductive Walk (α : Type) where
  /-- the block ran to its end -/
  | done (a : α)
  /-- a failed `shmat` was dereferenced; the segments at that moment -/
  | segv (segs : Shm)
  /-- the macro `CHECK_RES_DIE` ended the process -/
  | died (segs : Shm)
  /-- the `while` loop does not terminate -/
  | spin
deriving DecidableEq, Repr

/-- Outcome of a call of one of the map operations. -/
inductive Res (α : Type) where
  /-- the call returned `a`, leaving the shared state `s` -/
  | ret (a : α) (s : State)
  /-- the process faulted on an invalid pointer; shared state at the fault -/
  | segv (s : State)
  /-- the macro `CHECK_RES_DIE` ended the process -/
  | died (s : State)
  /-- the call of `semop` waits for the semaphore, which nobody releases -/
  | blocked (s : State)
  /-- the chain walk does not terminate -/
  | spin (s : State)
deriving DecidableEq, Repr

/-- The function `new_shared_map()`, where `id` is what `shmget` returned: `-1` makes
`CHECK_RES_DIE` end the process (`none`); otherwise the new segment holds
`ip = 0`, `port = 0`, `next = -1`. -/
def new_shared_map (segs : Shm) (id : Int) : Option (Int × Shm) :=
  if id = -1 then none
  else some (id, (id, { port := 0, ip := 0, next := -1 }) :: segs)

/-- The function `ip_map_init()`, where `id` and `sid` are what `shmget` and `semget`
returned; `semctl(semid, 0, SETVAL, 1)` sets the semaphore to 1. -/
def ip_map_init (id sid : Int) : Option State :=
  match new_shared_map [] id with
  | none => none
  | some (h, segs) =>
    if sid = -1 then none
    else some { ip_map_id := h, semid := sid, semval := 1, segs := segs }

/-- The function `sem_op(op)`: it returns `-1` without touching anything when `semid == -1`;
otherwise `semop` adds `op` to the semaphore, waiting (`none`) while the
result would be negative, and returns 0. -/
def sem_op (s : State) (op : Int) : Option (Int × State) :=
  if s.semid = -1 then some (-1, s)
  else if 0 ≤ (s.semval : Int) + op then
    some (0, { s with semval := ((s.semval : Int) + op).toNat })
  else none

/-- The function `sem_lock()`: `sem_op(-1)`. -/
def sem_lock (s : State) : Option (Int × State) := sem_op s (-1)

/-- The function `sem_unlock()`: `sem_op(1)`. -/
def sem_unlock (s : State) : Option (Int × State) := sem_op s 1

/-- Leaving a critical section: `sem_unlock()` and return `a`. -/
def unlock_ret {α : Type} (s : State) (a : α) : Res α :=
  match sem_unlock s with
  | some (_, s2) => .ret a s2
  | none => .blocked s

/-! ## `get_ip` -/

/-- The `while(next >= 0)` loop of `get_ip`; `fuel` bounds the number of
iterations. -/
def get_ip_loop (segs : Shm) (port : Nat) : Nat → Int → Walk Nat
  | 0, _ => .spin
  | fuel + 1, next =>
    if 0 ≤ next then
      match shmat segs next with
      | none => .segv segs
      | some m =>
        if m.port > port then .done 0
        else if m.port = port then .done m.ip
        else get_ip_loop segs port fuel m.next
    else .done 0

/-- The function `get_ip(port)`. The walk is given one iteration per live segment plus
one: a walk that needs more has entered a cycle and never ends. -/
def get_ip (s : State) (port : Nat) : Res Nat :=
  match sem_lock s with
  | none => .blocked s
  | some (r, s1) =>
    if r = -1 then .ret 0 s1
    else
      match get_ip_loop s1.segs port (s1.segs.length + 1) s1.ip_map_id with
      | .done ip => unlock_ret s1 ip
      | .segv segs => .segv { s1 with segs := segs }
      | .died segs => .died { s1 with segs := segs }
      | .spin => .spin s1

/-! ## `add_ip` -/

/-- How the loop of `add_ip` ends: it overwrote the ip of a matching node
and the function returns, or it left the loop with `prev` and `next`. -/
inductive AddPos where
  | updated (segs : Shm)
  | insert (prev next : Int)
deriving DecidableEq, Repr

/-- The `while(next >= 0)` loop of `add_ip`. -/
def add_ip_loop (segs : Shm) (port ip : Nat) : Nat → Int → Int → Walk AddPos
  | 0, _, _ => .spin
  | fuel + 1, prev, next =>
    if 0 ≤ next then
      match shmat segs next with
      | none => .segv segs
      | some m =>
        if m.port > port then .done (.insert prev next)
        else if m.port = port then
          .done (.updated (shm_write segs next { m with ip := ip }))
        else add_ip_loop segs port ip fuel next m.next
    else .done (.insert prev next)

/-- The insertion after the loop of `add_ip`: a new segment `n` receives
`port`, `ip` and `next`, and the predecessor's `next` is set to `n`. -/
def add_ip_link (segs : Shm) (id : Int) (port ip : Nat) (prev next : Int) :
    Walk Shm :=
  match new_shared_map segs id with
  | none => .died segs
  | some (n, segs1) =>
    match shmat segs1 n with
    | none => .segv segs1
    | some _ =>
      let segs2 := shm_write segs1 n { port := port, ip := ip, next := next }
      match shmat segs2 prev with
      | none => .segv segs2
      | some mp => .done (shm_write segs2 prev { mp with next := n })

/-- Loop and insertion of `add_ip` together: the segments when the function
reaches one of its two `sem_unlock()` calls. -/
def add_ip_body (segs : Shm) (id : Int) (port ip : Nat) (fuel : Nat)
    (prev next : Int) : Walk Shm :=
  match add_ip_loop segs port ip fuel prev next with
  | .done (.updated segs1) => .done segs1
  | .done (.insert prev1 next1) => add_ip_link segs id port ip prev1 next1
  | .segv segs1 => .segv segs1
  | .died segs1 => .died segs1
  | .spin => .spin

/-- The function `add_ip(port, ip)`; `id` is what `shmget` returns if the call reaches
`new_shared_map()`. -/
def add_ip (s : State) (id : Int) (port ip : Nat) : Res Unit :=
  if ip = 0xFFFFFFFF then .ret () s
  else
    match sem_lock s with
    | none => .blocked s
    | some (r, s1) =>
      if r = -1 then .ret () s1
      else
        match add_ip_body s1.segs id port ip (s1.segs.length + 1) (-1)
            s1.ip_map_id with
        | .done segs => unlock_ret { s1 with segs := segs } ()
        | .segv segs => .segv { s1 with segs := segs }
        | .died segs => .died { s1 with segs := segs }
        | .spin => .spin s1

/-! ## `remove_ip` -/

/-- The `while(next >= 0)` loop of `remove_ip`, up to the `sem_unlock()`
that follows each of its exits. `if(prev)` is the C truth test `prev != 0`. -/
def remove_ip_loop (segs : Shm) (port : Nat) : Nat → Int → Int → Walk Shm
  | 0, _, _ => .spin
  | fuel + 1, prev, next =>
    if 0 ≤ next then
      match shmat segs next with
      | none => .segv segs
      | some m =>
        if m.port > port then .done segs
        else if m.port = port then
          if prev ≠ 0 then
            let segs1 := shmctl_rmid segs next
            match shmat segs1 prev with
            | none => .segv segs1
            | some mp => .done (shm_write segs1 prev { mp with next := m.next })
          else .done segs
        else remove_ip_loop segs port fuel next m.next
    else .done segs

/-- The function `remove_ip(port)`. The walk is bounded as in `get_ip`. -/
def remove_ip (s : State) (port : Nat) : Res Unit :=
  match sem_lock s with
  | none => .blocked s
  | some (r, s1) =>
    if r = -1 then .ret () s1
    else
      match remove_ip_loop s1.segs port (s1.segs.length + 1) (-1)
          s1.ip_map_id with
      | .done segs => unlock_ret { s1 with segs := segs } ()
      | .segv segs => .segv { s1 with segs := segs }
      | .died segs => .died { s1 with segs := segs }
      | .spin => .spin s1

/-! ## Observing the chain -/

/-- A chain node as seen by a walk: its segment identifier, port and ip. -/
structure Entry where
  id : Int
  port : Nat
  ip : Nat
deriving DecidableEq, Repr

/-- Walk the chain from segment `next` the way every loop of the file does
(`while(next >= 0)`, follow `m->next`), collecting the nodes; `none` when the
walk faults or does not end within `fuel` iterations. -/
def chain_from (segs : Shm) : Nat → Int → Option (List Entry)
  | 0, _ => none
  | fuel + 1, next =>
    if 0 ≤ next then
      match shmat segs next with
      | none => none
      | some m =>
        match chain_from segs fuel m.next with
        | none => none
        | some c => some ({ id := next, port := m.port, ip := m.ip } :: c)
    else some []

/-- The chain of the map, head first. -/
def chain (s : State) : Option (List Entry) :=
  chain_from s.segs (s.segs.length + 1) s.ip_map_id

/-- The segments link the nodes `c`, in this order, starting at identifier
`id` and ending with `next = -1`. -/
def IsChain (segs : Shm) : Int → List Entry → Prop
  | id, [] => id = -1
  | id, e :: rest =>
    id = e.id ∧ 0 ≤ e.id ∧
      ∃ nx, shmat segs e.id = some { port := e.port, ip := e.ip, next := nx } ∧
        IsChain segs nx rest

/-- What the loop of `get_ip` computes, read off the list of nodes. -/
def l_get (p : Nat) : List Entry → Nat
  | [] => 0
  | e :: r => if e.port > p then 0 else if e.port = p then e.ip else l_get p r

/-- Whether the loop of `add_ip` stops on a node carrying port `p`. -/
def l_hit (p : Nat) : List Entry → Bool
  | [] => false
  | e :: r => if e.port > p then false else if e.port = p then true else l_hit p r

/-- What `add_ip` does to the list of nodes. -/
def l_add (n : Int) (p ip : Nat) : List Entry → List Entry
  | [] => [{ id := n, port := p, ip := ip }]
  | e :: r =>
    if e.port > p then { id := n, port := p, ip := ip } :: e :: r
    else if e.port = p then { e with ip := ip } :: r
    else e :: l_add n p ip r

/-- What the loop of `remove_ip` does to the list of nodes that follow the
node `prev`. -/
def l_remove (p : Nat) : Int → List Entry → List Entry
  | _, [] => []
  | prev, e :: r =>
    if e.port > p then e :: r
    else if e.port = p then (if prev ≠ 0 then r else e :: r)
    else e :: l_remove p e.id r

/-- Well-formed map: the semaphore exists and is free, and the segments hold
a chain `c` of distinct nodes, strictly ascending by port, whose first node
carries port 0. -/
structure Inv (s : State) (c : List Entry) : Prop where
  sem_id : s.semid ≠ -1
  sem_val : s.semval = 1
  no_neg : shmat s.segs (-1) = none
  is_chain : IsChain s.segs s.ip_map_id c
  nodup : (c.map Entry.id).Nodup
  sorted : (c.map Entry.port).Pairwise (fun a b => a < b)
  head : ∃ e rest, c = e :: rest ∧ e.port = 0

/-- States reached from `ip_map_init()` by calls of `add_ip` and `remove_ip`
that returned. The identifiers handed out by `shmget` and `semget` are
arbitrary non-negative numbers, a new segment identifier being one that no
live segment has; the ip passed to `add_ip` is a `uint32_t`. -/
inductive Reachable : State → Prop where
  | init (h sid : Int) (s : State) (hh : 0 ≤ h) (hs : 0 ≤ sid)
      (hi : ip_map_init h sid = some s) : Reachable s
  | add (s s1 : State) (n : Int) (p ip : Nat) (hr : Reachable s) (hn : 0 ≤ n)
      (hf : shmat s.segs n = none) (hip : ip < 2 ^ 32)
      (ha : add_ip s n p ip = .ret () s1) : Reachable s1
  | remove (s s1 : State) (p : Nat) (hr : Reachable s)
      (ha : remove_ip s p = .ret () s1) : Reachable s1

/-! ## The query connection -/

/-- The two bytes of `uint16_t port`, in memory order. -/
structure Bytes2 where
  b0 : Nat
  b1 : Nat
deriving DecidableEq, Repr

/-- The four bytes of `uint32_t ip`, in memory order. -/
structure Bytes4 where
  b0 : Nat
  b1 : Nat
  b2 : Nat
  b3 : Nat
deriving DecidableEq, Repr

/-- The bytes of the buffer as a list. -/
def Bytes4.toList (b : Bytes4) : List Nat := [b.b0, b.b1, b.b2, b.b3]

/-- The value `0xFFFFFFFF` in a `uint32_t`: every byte is `0xFF`. -/
def ip_unknown : Bytes4 := { b0 := 255, b1 := 255, b2 := 255, b3 := 255 }

/-- The record `struct map_queue`. `port` and `ip` are kept as the bytes in memory,
which is how `read` and `write` see them through `buf`. -/
structure map_queue where
  fd : Int
  port : Bytes2
  size_r : Int
  ip : Bytes4
  size_w : Int
deriving DecidableEq, Repr

/-- The value `ntohs` gives for the `uint16_t` whose bytes in memory are `b`: the first byte
is the high one, on every host. -/
def ntohs (b : Bytes2) : Nat := b.b0 * 256 + b.b1

/-- The bytes in memory of `htonl(x)`: most significant byte first. -/
def htonl (x : Nat) : Bytes4 :=
  { b0 := x / 2 ^ 24 % 256, b1 := x / 2 ^ 16 % 256, b2 := x / 2 ^ 8 % 256,
    b3 := x % 256 }

/-- Store one byte at offset `off` of the port buffer. -/
def Bytes2.set (b : Bytes2) (off : Nat) (v : Nat) : Bytes2 :=
  if off = 0 then { b with b0 := v }
  else if off = 1 then { b with b1 := v }
  else b

/-- What `read` does to the port buffer: the bytes `bs` are stored from
offset `off` on. -/
def buf_store (b : Bytes2) (off : Nat) : List Nat → Bytes2
  | [] => b
  | v :: vs => buf_store (b.set off v) (off + 1) vs

/-- The `errno` values `handle_connection` tells apart. -/
inductive Errno where
  | EAGAIN
  | ECONNRESET
  | EPIPE
  | other
deriving DecidableEq, Repr

/-- What one `read` call does: it delivers the bytes `bs` and returns their
number (the kernel delivers at most `count` bytes, so a longer entry is cut;
no byte at all is end of file, return value 0), or it fails, return value
`-1` with `errno`. -/
inductive ReadRes where
  | data (bs : List Nat)
  | err (e : Errno)
deriving DecidableEq, Repr

/-- What one `write` call does: it takes `n` bytes and returns `n` (the
kernel takes at most `count` bytes, so a larger entry is cut), or it fails,
return value `-1` with `errno`. -/
inductive WriteRes where
  | room (n : Nat)
  | err (e : Errno)
deriving DecidableEq, Repr

/-- What a call of `handle_connection` returns. The constants `FD_NODATA`,
`FD_CNXCLOSED` and `FD_STALLED` and the macro `CHECK_RES_RETURN` come from
`common.h`; they are kept symbolic. -/
inductive HcRet where
  | FD_NODATA
  | FD_CNXCLOSED
  | FD_STALLED
  /-- the macro `CHECK_RES_RETURN` returned the failed result -/
  | res_failed
  /-- the final `return 1` -/
  | one
  /-- the call of `get_ip` did not return -/
  | lookup_stuck
  /-- the script of system-call results ended before the call did -/
  | script_end
deriving DecidableEq, Repr

/-- The number `SIZE_MAX + 1` on an LP64 host: `ssize_t` cursors are converted
to `size_t` when compared with `sizeof`. -/
def SIZE_MOD : Int := 2 ^ 64

/-- The first loop of `handle_connection`, `while(q->size_r < sizeof(q->port))`.
`none` as return value: the loop ended and the function goes on. -/
def read_loop : List ReadRes → map_queue → Option HcRet × map_queue × List ReadRes
  | [], q =>
    if q.size_r % SIZE_MOD < 2 then (some .script_end, q, []) else (none, q, [])
  | r :: rest, q =>
    if q.size_r % SIZE_MOD < 2 then
      match r with
      | .err .EAGAIN => (some .FD_NODATA, q, rest)
      | .err .ECONNRESET => (some .FD_CNXCLOSED, q, rest)
      | .err .EPIPE => (some .FD_CNXCLOSED, q, rest)
      | .err .other => (some .res_failed, q, rest)
      | .data bs =>
        let got := bs.take ((2 - q.size_r) % SIZE_MOD).toNat
        if got.length = 0 then (some .FD_CNXCLOSED, q, rest)
        else
          read_loop rest
            { q with port := buf_store q.port q.size_r.toNat got,
                     size_r := q.size_r + got.length }
    else (none, q, r :: rest)

/-- The second loop, `while(q->size_w < sizeof(q->ip))`; the last component
is the bytes written. -/
def write_loop : List WriteRes → map_queue →
    Option HcRet × map_queue × List WriteRes × List Nat
  | [], q =>
    if q.size_w % SIZE_MOD < 4 then (some .script_end, q, [], [])
    else (none, q, [], [])
  | w :: rest, q =>
    if q.size_w % SIZE_MOD < 4 then
      match w with
      | .err .EAGAIN => (some .FD_STALLED, q, rest, [])
      | .err .ECONNRESET => (some .FD_CNXCLOSED, q, rest, [])
      | .err .EPIPE => (some .FD_CNXCLOSED, q, rest, [])
      | .err .other => (some .res_failed, q, rest, [])
      | .room n =>
        let k := min n ((4 - q.size_w) % SIZE_MOD).toNat
        let sent := (q.ip.toList.drop q.size_w.toNat).take k
        match write_loop rest { q with size_w := q.size_w + k } with
        | (r, q1, rest1, out) => (r, q1, rest1, sent ++ out)
    else (none, q, w :: rest, [])

/-- The lookup between the loops:
`if(q->ip == 0xFFFFFFFF) q->ip = htonl(get_ip(ntohs(q->port)));`. -/
def resolve (q : map_queue) (s : State) : Option (map_queue × State) :=
  if q.ip = ip_unknown then
    match get_ip s (ntohs q.port) with
    | .ret ip s1 => some ({ q with ip := htonl ip }, s1)
    | _ => none
  else some (q, s)

/-- A call of `handle_connection` and what it leaves behind. -/
structure HcOut where
  ret : HcRet
  q : map_queue
  s : State
  rds : List ReadRes
  wrs : List WriteRes
  out : List Nat
deriving DecidableEq, Repr

/-- The function `handle_connection(q)` in map state `s`, the `read` calls meeting `rds`
and the `write` calls `wrs`, in this order. -/
def handle_connection (q : map_queue) (s : State) (rds : List ReadRes)
    (wrs : List WriteRes) : HcOut :=
  match read_loop rds q with
  | (some r, q1, rds1) =>
    { ret := r, q := q1, s := s, rds := rds1, wrs := wrs, out := [] }
  | (none, q1, rds1) =>
    match resolve q1 s with
    | none =>
      { ret := .lookup_stuck, q := q1, s := s, rds := rds1, wrs := wrs, out := [] }
    | some (q2, s2) =>
      match write_loop wrs q2 with
      | (some r, q3, wrs1, out) =>
        { ret := r, q := q3, s := s2, rds := rds1, wrs := wrs1, out := out }
      | (none, q3, wrs1, out) =>
        { ret := .one,
          q := { q3 with size_r := 0, size_w := 0, ip := ip_unknown },
          s := s2, rds := rds1, wrs := wrs1, out := out }

/-- The function `new_map_queue(fd)`: all zero but `ip = 0xFFFFFFFF` and `fd`. -/
def new_map_queue (fd : Int) : map_queue :=
  { fd := fd, port := { b0 := 0, b1 := 0 }, size_r := 0, ip := ip_unknown,
    size_w := 0 }

/-- Modelled from the spec: the readiness loop that calls `handle_connection`
again on the same `map_queue` after a would-block outcome (`FD_NODATA`,
`FD_STALLED`) and stops at any other outcome; the caller is not part of the
sources. The bytes written by the successive calls are concatenated. -/
def serve : Nat → map_queue → State → List ReadRes → List WriteRes → HcOut
  | 0, q, s, rds, wrs =>
    { ret := .script_end, q := q, s := s, rds := rds, wrs := wrs, out := [] }
  | fuel + 1, q, s, rds, wrs =>
    let o := handle_connection q s rds wrs
    match o.ret with
    | .FD_NODATA =>
      let o2 := serve fuel o.q o.s o.rds o.wrs
      { o2 with out := o.out ++ o2.out }
    | .FD_STALLED =>
      let o2 := serve fuel o.q o.s o.rds o.wrs
      { o2 with out := o.out ++ o2.out }
    | _ => o

/-- One request/response cycle driven to its end: every would-block outcome
uses up at least one entry of the scripts, which bounds the number of calls. -/
def run_cycle (q : map_queue) (s : State) (rds : List ReadRes)
    (wrs : List WriteRes) : HcOut :=
  serve (rds.length + wrs.length + 1) q s rds wrs

/-- The bytes a script of `read` results delivers, when it consists of
would-block failures (`EAGAIN`) and deliveries of at least one byte. -/
def read_data : List ReadRes → Option (List Nat)
  | [] => some []
  | .err .EAGAIN :: rest => read_data rest
  | .err _ :: _ => none
  | .data [] :: _ => none
  | .data (b :: bs) :: rest =>
    match read_data rest with
    | none => none
    | some more => some (b :: bs ++ more)

/-- The number of bytes a script of `write` results takes, when it consists
of would-block failures (`EAGAIN`) and partial writes. -/
def write_room : List WriteRes → Option Nat
  | [] => some 0
  | .err .EAGAIN :: rest => write_room rest
  | .err _ :: _ => none
  | .room n :: rest =>
    match write_room rest with
    | none => none
    | some more => some (n + more)

/-- The two request bytes of port `p`, network byte order. -/
def request (p : Nat) : List Nat := [p / 256 % 256, p % 256]

/-! ## The end of a call, and a map that changes between calls -/

/-- What the kernel does to the semaphore when the process ends between
`sem_lock()` and `sem_unlock()`: `sem_op` sets `sb.sem_flg = SEM_UNDO`, so the
decrement made by `sem_lock()` is undone. -/
def sem_undo (s : State) : State := { s with semval := s.semval + 1 }

/-- The shared state a call of `get_ip`, `add_ip` or `remove_ip` leaves once
it is over: the state it returned, or, when the process ended in the critical
section (a fault, `CHECK_RES_DIE`), the state at that moment with the
semaphore adjustment undone. The value `none` says that the call is never
over. -/
def after_call {α : Type} : Res α → Option State
  | .ret _ s => some s
  | .segv s => some (sem_undo s)
  | .died s => some (sem_undo s)
  | .blocked _ => none
  | .spin _ => none

/-- The number of calls of `handle_connection` that end in `FD_NODATA` before
the `need` bytes still missing from the request have arrived. -/
def read_stalls : List ReadRes → Nat → Nat
  | [], _ => 0
  | .err .EAGAIN :: rest, need => if need = 0 then 0 else read_stalls rest need + 1
  | .err _ :: _, _ => 0
  | .data bs :: rest, need =>
    if need = 0 then 0 else read_stalls rest (need - bs.length)

/-- Modelled from the spec: the readiness loop of `serve` when other processes
change the map between the calls. The first call of `handle_connection` meets
the map state `s`, each later call the next state of the list; after the last
state the outcome of the call is returned as it is. -/
def serve_changing : List State → State → map_queue → List ReadRes →
    List WriteRes → HcOut
  | [], s, q, rds, wrs => handle_connection q s rds wrs
  | s1 :: more, s, q, rds, wrs =>
    let o := handle_connection q s rds wrs
    match o.ret with
    | .FD_NODATA =>
      let o2 := serve_changing more s1 o.q o.rds o.wrs
      { o2 with out := o.out ++ o2.out }
    | .FD_STALLED =>
      let o2 := serve_changing more s1 o.q o.rds o.wrs
      { o2 with out := o.out ++ o2.out }
    | _ => o

/-! ## Sample states -/

/-- The map right after `ip_map_init()`, the head in segment 5 and the
semaphore set 7. -/
def fresh_map : State :=
  { ip_map_id := 5, semid := 7, semval := 1,
    segs := [(5, { port := 0, ip := 0, next := -1 })] }

/-- The map `fresh_map` after `add_ip(443, 0x0A000001)` in a new segment 6 and
`add_ip(22, 0x0A000002)` in a new segment 9. -/
def two_port_map : State :=
  { ip_map_id := 5, semid := 7, semval := 1,
    segs := [(9, { port := 22, ip := 0x0A000002, next := 6 }),
             (6, { port := 443, ip := 0x0A000001, next := -1 }),
             (5, { port := 0, ip := 0, next := 9 })] }

/-- The map `fresh_map` after `add_ip(22, 0x01020304)` in a new segment 6. -/
def ssh_map : State :=
  { ip_map_id := 5, semid := 7, semval := 1,
    segs := [(6, { port := 22, ip := 0x01020304, next := -1 }),
             (5, { port := 0, ip := 0, next := 6 })] }

/-! ## Segments: attach after write, remove, allocate -/

theorem shmat_write (segs : Shm) (i j : Int) (v : map_t) :
    shmat (shm_write segs i v) j =
      if j = i then (shmat segs i).map (fun _ => v) else shmat segs j := by
  induction segs with
  | nil => simp [shm_write, shmat]
  | cons e rest ih =>
    obtain ⟨k, m⟩ := e
    by_cases hk : k = i
    · subst hk
      by_cases hj : j = k
      · subst hj; simp [shm_write, shmat]
      · have hj2 : ¬ k = j := fun h => hj h.symm
        simp [shm_write, shmat, hj, hj2]
    · by_cases hj : j = i
      · subst hj
        simp [shm_write, shmat, hk, ih]
      · by_cases hkj : k = j
        · simp [shm_write, shmat, hk, hkj, hj]
        · simp [shm_write, shmat, hk, hkj, hj, ih]

theorem shmat_write_same (segs : Shm) (i : Int) (m v : map_t)
    (h : shmat segs i = some m) : shmat (shm_write segs i v) i = some v := by
  rw [shmat_write]; simp [h]

theorem shmat_write_ne (segs : Shm) (i j : Int) (v : map_t) (h : j ≠ i) :
    shmat (shm_write segs i v) j = shmat segs j := by
  rw [shmat_write]; simp [h]

theorem shmat_rmid (segs : Shm) (i j : Int) :
    shmat (shmctl_rmid segs i) j = if j = i then none else shmat segs j := by
  induction segs with
  | nil => simp [shmctl_rmid, shmat]
  | cons e rest ih =>
    obtain ⟨k, m⟩ := e
    unfold shmctl_rmid at ih ⊢
    by_cases hk : k = i
    · subst hk
      by_cases hj : j = k
      · subst hj; simpa [List.filter, shmat] using ih
      · have hj2 : ¬ k = j := fun h => hj h.symm
        simpa [List.filter, shmat, hj, hj2] using ih
    · by_cases hkj : k = j
      · subst hkj; simp [List.filter, shmat, hk]
      · simpa [List.filter, shmat, hk, hkj] using ih

theorem shmat_cons (segs : Shm) (i j : Int) (m : map_t) :
    shmat ((i, m) :: segs) j = if i = j then some m else shmat segs j := rfl

theorem shm_write_keys (segs : Shm) (i : Int) (v : map_t) :
    (shm_write segs i v).map Prod.fst = segs.map Prod.fst := by
  induction segs with
  | nil => rfl
  | cons e rest ih =>
    obtain ⟨k, m⟩ := e
    by_cases hk : k = i
    · simp [shm_write, hk]
    · simp [shm_write, hk, ih]

theorem shmat_mem_keys (segs : Shm) (i : Int) (m : map_t)
    (h : shmat segs i = some m) : i ∈ segs.map Prod.fst := by
  induction segs with
  | nil => simp [shmat] at h
  | cons e rest ih =>
    obtain ⟨k, m1⟩ := e
    by_cases hk : k = i
    · simp [hk]
    · simp [shmat, hk] at h; simp [ih h]

theorem ids_length_le (segs : Shm) (ids : List Int) (hn : ids.Nodup)
    (hv : ∀ i ∈ ids, ∃ m, shmat segs i = some m) : ids.length ≤ segs.length := by
  have hsub : ids ⊆ segs.map Prod.fst := by
    intro i hi
    obtain ⟨m, hm⟩ := hv i hi
    exact shmat_mem_keys segs i m hm
  have h := (List.subperm_of_subset hn hsub).length_le
  simpa using h

/-! ## Chains -/

theorem IsChain.frame {segs segs1 : Shm} : ∀ (c : List Entry) (id : Int),
    IsChain segs id c → (∀ e ∈ c, shmat segs1 e.id = shmat segs e.id) →
    IsChain segs1 id c := by
  intro c
  induction c with
  | nil => intro id h _; exact h
  | cons e rest ih =>
    intro id h hf
    obtain ⟨h1, h2, nx, h3, h4⟩ := h
    refine ⟨h1, h2, nx, ?_, ih nx h4 (fun x hx => hf x (List.mem_cons_of_mem _ hx))⟩
    rw [hf e (List.mem_cons_self _ _)]; exact h3

theorem IsChain.valid {segs : Shm} : ∀ (c : List Entry) (id : Int),
    IsChain segs id c → ∀ i ∈ c.map Entry.id, ∃ m, shmat segs i = some m := by
  intro c
  induction c with
  | nil => intro id _ i hi; simp at hi
  | cons e rest ih =>
    intro id h i hi
    obtain ⟨_, _, nx, h3, h4⟩ := h
    simp only [List.map_cons, List.mem_cons] at hi
    rcases hi with hi | hi
    · subst hi; exact ⟨_, h3⟩
    · exact ih nx h4 i hi

theorem IsChain.length_le {segs : Shm} (c : List Entry) (id : Int)
    (h : IsChain segs id c) (hn : (c.map Entry.id).Nodup) :
    c.length ≤ segs.length := by
  have := ids_length_le segs (c.map Entry.id) hn (IsChain.valid c id h)
  simpa using this

theorem chain_from_spec {segs : Shm} : ∀ (c : List Entry) (fuel : Nat) (id : Int),
    IsChain segs id c → c.length < fuel → chain_from segs fuel id = some c := by
  intro c
  induction c with
  | nil =>
    intro fuel id h hl
    cases fuel with
    | zero => simp at hl
    | succ f =>
      have : id = -1 := h
      subst this
      simp [chain_from]
  | cons e rest ih =>
    intro fuel id h hl
    obtain ⟨h1, h2, nx, h3, h4⟩ := h
    cases fuel with
    | zero => simp at hl
    | succ f =>
      subst h1
      have hl1 : rest.length < f := by simpa using hl
      simp [chain_from, h2, h3, ih f nx h4 hl1]

theorem get_ip_loop_spec {segs : Shm} (p : Nat) : ∀ (c : List Entry) (fuel : Nat)
    (id : Int), IsChain segs id c → c.length < fuel →
    get_ip_loop segs p fuel id = .done (l_get p c) := by
  intro c
  induction c with
  | nil =>
    intro fuel id h hl
    cases fuel with
    | zero => simp at hl
    | succ f =>
      have : id = -1 := h
      subst this
      simp [get_ip_loop, l_get]
  | cons e rest ih =>
    intro fuel id h hl
    obtain ⟨h1, h2, nx, h3, h4⟩ := h
    cases fuel with
    | zero => simp at hl
    | succ f =>
      subst h1
      have hl1 : rest.length < f := by simpa using hl
      simp only [get_ip_loop, h2, h3, if_true, l_get]
      by_cases hg : e.port > p
      · simp [hg]
      · by_cases he : e.port = p
        · simp [he]
        · simp [hg, he, ih f nx h4 hl1]

/-! ## The loops, read on the list of nodes -/

theorem add_ip_link_spec (segs : Shm) (n : Int) (p ip : Nat) (prev next : Int)
    (mp : map_t) (hp : shmat segs prev = some mp) (hf : shmat segs n = none)
    (hn : n ≠ -1) :
    ∃ segs1, add_ip_link segs n p ip prev next = .done segs1 ∧
      shmat segs1 prev = some { mp with next := n } ∧
      shmat segs1 n = some { port := p, ip := ip, next := next } ∧
      (∀ j, j ≠ prev → j ≠ n → shmat segs1 j = shmat segs j) ∧
      segs1.map Prod.fst = n :: segs.map Prod.fst := by
  have hpn : prev ≠ n := by
    intro h; rw [h, hf] at hp; cases hp
  have h2 : shmat (shm_write ((n, ({ port := 0, ip := 0, next := -1 } : map_t)) :: segs) n
      { port := p, ip := ip, next := next }) prev = some mp := by
    rw [shmat_write_ne _ _ _ _ hpn, shmat_cons, if_neg (fun h => hpn h.symm)]
    exact hp
  refine ⟨shm_write (shm_write ((n, ({ port := 0, ip := 0, next := -1 } : map_t)) :: segs) n
      { port := p, ip := ip, next := next }) prev { mp with next := n }, ?_, ?_, ?_, ?_, ?_⟩
  · simp only [add_ip_link, new_shared_map, hn, if_false, shmat_cons, if_true, h2]
  · exact shmat_write_same _ _ _ _ h2
  · rw [shmat_write_ne _ _ _ _ hpn.symm]
    exact shmat_write_same _ _ { port := 0, ip := 0, next := -1 } _ (by simp [shmat_cons])
  · intro j hj1 hj2
    rw [shmat_write_ne _ _ _ _ hj1, shmat_write_ne _ _ _ _ hj2, shmat_cons,
      if_neg (fun h => hj2 h.symm)]
  · rw [shm_write_keys, shm_write_keys]; rfl

theorem add_ip_body_spec (n : Int) (p ip : Nat) (hn : 0 ≤ n) :
    ∀ (c : List Entry) (segs : Shm) (fuel : Nat) (prev next : Int) (mp : map_t),
    IsChain segs next c → shmat segs prev = some mp → mp.next = next →
    prev ∉ c.map Entry.id → (c.map Entry.id).Nodup → shmat segs n = none →
    c.length < fuel →
    ∃ segs1 nx, add_ip_body segs n p ip fuel prev next = .done segs1 ∧
      shmat segs1 prev = some { mp with next := nx } ∧
      IsChain segs1 nx (l_add n p ip c) ∧
      (∀ j, j ≠ prev → j ≠ n → j ∉ c.map Entry.id → shmat segs1 j = shmat segs j) ∧
      segs1.map Prod.fst =
        (if l_hit p c then segs.map Prod.fst else n :: segs.map Prod.fst) := by
  have hn1 : n ≠ -1 := by omega
  intro c
  induction c with
  | nil =>
    intro segs fuel prev next mp hc hp hnx _ _ hf hl
    have hnext : next = -1 := hc
    subst hnext
    cases fuel with
    | zero => simp at hl
    | succ f =>
      obtain ⟨segs1, e1, e2, e3, e4, e5⟩ :=
        add_ip_link_spec segs n p ip prev (-1) mp hp hf hn1
      refine ⟨segs1, n, ?_, e2, ?_, ?_, ?_⟩
      · simp [add_ip_body, add_ip_loop, e1]
      · exact ⟨rfl, hn, -1, e3, rfl⟩
      · intro j h1 h2 _; exact e4 j h1 h2
      · simpa [l_hit] using e5
  | cons e rest ih =>
    intro segs fuel prev next mp hc hp hnx hpc hnd hf hl
    obtain ⟨h1, h2, nx, h3, h4⟩ := hc
    cases fuel with
    | zero => simp at hl
    | succ f =>
      subst h1
      have hl1 : rest.length < f := by simpa using hl
      simp only [List.map_cons, List.mem_cons, not_or] at hpc
      simp only [List.map_cons, List.nodup_cons] at hnd
      have hne : n ≠ e.id := by
        intro h; rw [h, h3] at hf; cases hf
      have hnr : n ∉ rest.map Entry.id := by
        intro h
        obtain ⟨m, hm⟩ := IsChain.valid rest nx h4 n h
        rw [hf] at hm; cases hm
      have hpn : prev ≠ n := by
        intro h; rw [h, hf] at hp; cases hp
      by_cases hg : e.port > p
      · obtain ⟨segs1, e1, e2, e3, e4, e5⟩ :=
          add_ip_link_spec segs n p ip prev e.id mp hp hf hn1
        refine ⟨segs1, n, ?_, e2, ?_, ?_, ?_⟩
        · simp [add_ip_body, add_ip_loop, h2, h3, hg, e1]
        · rw [l_add, if_pos hg]
          refine ⟨rfl, hn, e.id, e3, ?_⟩
          refine IsChain.frame (e :: rest) e.id ⟨rfl, h2, nx, h3, h4⟩ ?_
          intro x hx
          simp only [List.mem_cons] at hx
          rcases hx with hx | hx
          · subst hx; exact e4 _ (fun h => hpc.1 h.symm) (fun h => hne h.symm)
          · have hxi : x.id ∈ rest.map Entry.id := List.mem_map_of_mem _ hx
            exact e4 _ (fun h => hpc.2 (h ▸ hxi)) (fun h => hnr (h ▸ hxi))
        · intro j j1 j2 _; exact e4 j j1 j2
        · simpa [l_hit, hg] using e5
      · by_cases he : e.port = p
        · refine ⟨shm_write segs e.id { port := e.port, ip := ip, next := nx }, e.id,
            ?_, ?_, ?_, ?_, ?_⟩
          · simp [add_ip_body, add_ip_loop, h2, h3, hg, he]
          · rw [shmat_write_ne _ _ _ _ hpc.1, hp, ← hnx]
          · rw [l_add, if_neg hg, if_pos he]
            refine ⟨rfl, h2, nx, ?_, ?_⟩
            · simpa [he] using shmat_write_same _ _ _ _ h3
            · refine IsChain.frame rest nx h4 ?_
              intro x hx
              have hxi : x.id ∈ rest.map Entry.id := List.mem_map_of_mem _ hx
              exact shmat_write_ne _ _ _ _ (fun h => hnd.1 (h ▸ hxi))
          · intro j _ _ j3
            simp only [List.map_cons, List.mem_cons, not_or] at j3
            exact shmat_write_ne _ _ _ _ j3.1
          · simp [l_hit, hg, he, shm_write_keys]
        · obtain ⟨segs1, nx1, e1, e2, e3, e4, e5⟩ :=
            ih segs f e.id nx { port := e.port, ip := e.ip, next := nx } h4 h3 rfl
              hnd.1 hnd.2 hf hl1
          refine ⟨segs1, e.id, ?_, ?_, ?_, ?_, ?_⟩
          · have : add_ip_body segs n p ip (f + 1) prev e.id
                = add_ip_body segs n p ip f e.id nx := by
              simp [add_ip_body, add_ip_loop, h2, h3, hg, he]
            rw [this, e1]
          · rw [e4 prev hpc.1 hpn hpc.2, hp, ← hnx]
          · rw [l_add, if_neg hg, if_neg he]
            exact ⟨rfl, h2, nx1, e2, e3⟩
          · intro j j1 j2 j3
            simp only [List.map_cons, List.mem_cons, not_or] at j3
            exact e4 j j3.1 j2 j3.2
          · simpa [l_hit, hg, he] using e5

theorem remove_ip_loop_spec (p : Nat) :
    ∀ (c : List Entry) (segs : Shm) (fuel : Nat) (prev next : Int) (mp : map_t),
    IsChain segs next c → shmat segs prev = some mp → mp.next = next →
    prev ∉ c.map Entry.id → (c.map Entry.id).Nodup → c.length < fuel →
    ∃ segs1 nx, remove_ip_loop segs p fuel prev next = .done segs1 ∧
      shmat segs1 prev = some { mp with next := nx } ∧
      IsChain segs1 nx (l_remove p prev c) ∧
      (∀ j, j ≠ prev → j ∉ c.map Entry.id → shmat segs1 j = shmat segs j) ∧
      ((∀ e ∈ c, e.port ≠ p) → segs1 = segs) := by
  intro c
  induction c with
  | nil =>
    intro segs fuel prev next mp hc hp hnx _ _ hl
    have hnext : next = -1 := hc
    subst hnext
    cases fuel with
    | zero => simp at hl
    | succ f =>
      refine ⟨segs, -1, ?_, ?_, ?_, ?_, ?_⟩
      · simp [remove_ip_loop]
      · rw [hp, ← hnx]
      · exact rfl
      · intro j _ _; rfl
      · intro _; rfl
  | cons e rest ih =>
    intro segs fuel prev next mp hc hp hnx hpc hnd hl
    obtain ⟨h1, h2, nx, h3, h4⟩ := hc
    cases fuel with
    | zero => simp at hl
    | succ f =>
      subst h1
      have hl1 : rest.length < f := by simpa using hl
      simp only [List.map_cons, List.mem_cons, not_or] at hpc
      simp only [List.map_cons, List.nodup_cons] at hnd
      by_cases hg : e.port > p
      · refine ⟨segs, e.id, ?_, ?_, ?_, ?_, ?_⟩
        · simp [remove_ip_loop, h2, h3, hg]
        · rw [hp, ← hnx]
        · rw [l_remove, if_pos hg]; exact ⟨rfl, h2, nx, h3, h4⟩
        · intro j _ _; rfl
        · intro _; rfl
      · by_cases he : e.port = p
        · by_cases hz : prev = 0
          · refine ⟨segs, e.id, ?_, ?_, ?_, ?_, ?_⟩
            · simp [remove_ip_loop, h2, h3, hg, he, hz]
            · rw [hp, ← hnx]
            · rw [l_remove, if_neg hg, if_pos he, if_neg (not_not.mpr hz)]
              exact ⟨rfl, h2, nx, h3, h4⟩
            · intro j _ _; rfl
            · intro _; rfl
          · have hp1 : shmat (shmctl_rmid segs e.id) prev = some mp := by
              rw [shmat_rmid, if_neg hpc.1]; exact hp
            refine ⟨shm_write (shmctl_rmid segs e.id) prev { mp with next := nx }, nx,
              ?_, ?_, ?_, ?_, ?_⟩
            · simp [remove_ip_loop, h2, h3, hg, he, hz, hp1]
            · exact shmat_write_same _ _ _ _ hp1
            · rw [l_remove, if_neg hg, if_pos he, if_pos hz]
              refine IsChain.frame rest nx h4 ?_
              intro x hx
              have hxi : x.id ∈ rest.map Entry.id := List.mem_map_of_mem _ hx
              have hx1 : x.id ≠ prev := fun h => hpc.2 (h ▸ hxi)
              have hx2 : x.id ≠ e.id := fun h => hnd.1 (h ▸ hxi)
              rw [shmat_write_ne _ _ _ _ hx1, shmat_rmid, if_neg hx2]
            · intro j j1 j2
              simp only [List.map_cons, List.mem_cons, not_or] at j2
              rw [shmat_write_ne _ _ _ _ j1, shmat_rmid, if_neg j2.1]
            · intro hno
              exact absurd he (hno e (List.mem_cons_self _ _))
        · obtain ⟨segs1, nx1, e1, e2, e3, e4, e5⟩ :=
            ih segs f e.id nx { port := e.port, ip := e.ip, next := nx } h4 h3 rfl
              hnd.1 hnd.2 hl1
          refine ⟨segs1, e.id, ?_, ?_, ?_, ?_, ?_⟩
          · have : remove_ip_loop segs p (f + 1) prev e.id
                = remove_ip_loop segs p f e.id nx := by
              simp [remove_ip_loop, h2, h3, hg, he]
            rw [this, e1]
          · rw [e4 prev hpc.1 hpc.2, hp, ← hnx]
          · rw [l_remove, if_neg hg, if_neg he]
            exact ⟨rfl, h2, nx1, e2, e3⟩
          · intro j _ j3
            simp only [List.map_cons, List.mem_cons, not_or] at j3
            exact e4 j j3.1 j3.2
          · intro hno
            exact e5 (fun x hx => hno x (List.mem_cons_of_mem _ hx))

/-! ## Lists of nodes -/

theorem l_get_add_same (n : Int) (p ip : Nat) (c : List Entry) :
    l_get p (l_add n p ip c) = ip := by
  induction c with
  | nil => simp [l_add, l_get]
  | cons e rest ih =>
    by_cases hg : e.port > p
    · simp [l_add, l_get, hg]
    · by_cases he : e.port = p
      · simp [l_add, l_get, he]
      · simp [l_add, l_get, hg, he, ih]

theorem l_hit_add_same (n : Int) (p ip : Nat) (c : List Entry) :
    l_hit p (l_add n p ip c) = true := by
  induction c with
  | nil => simp [l_add, l_hit]
  | cons e rest ih =>
    by_cases hg : e.port > p
    · simp [l_add, l_hit, hg]
    · by_cases he : e.port = p
      · simp [l_add, l_hit, he]
      · simp [l_add, l_hit, hg, he, ih]

theorem l_add_add (n1 n2 : Int) (p ip1 ip2 : Nat) (c : List Entry) :
    l_add n2 p ip2 (l_add n1 p ip1 c) = l_add n1 p ip2 c := by
  induction c with
  | nil => simp [l_add]
  | cons e rest ih =>
    by_cases hg : e.port > p
    · simp [l_add, hg]
    · by_cases he : e.port = p
      · simp [l_add, he]
      · simp [l_add, hg, he, ih]

theorem l_add_ports (n : Int) (p ip : Nat) (c : List Entry) :
    ∀ x ∈ (l_add n p ip c).map Entry.port, x = p ∨ x ∈ c.map Entry.port := by
  induction c with
  | nil => intro x hx; simp [l_add] at hx; exact Or.inl hx
  | cons e rest ih =>
    intro x hx
    by_cases hg : e.port > p
    · simp [l_add, hg] at hx ⊢; exact hx
    · by_cases he : e.port = p
      · rw [l_add, if_neg hg, if_pos he] at hx
        simp only [List.map_cons, List.mem_cons] at hx ⊢
        rcases hx with hx | hx
        · exact Or.inl (hx.trans he)
        · exact Or.inr (Or.inr hx)
      · simp only [l_add, hg, he, if_false, List.map_cons, List.mem_cons] at hx ⊢
        rcases hx with hx | hx
        · exact Or.inr (Or.inl hx)
        · rcases ih x hx with h | h
          · exact Or.inl h
          · exact Or.inr (Or.inr h)

theorem l_add_ids (n : Int) (p ip : Nat) (c : List Entry) :
    ∀ x ∈ (l_add n p ip c).map Entry.id, x = n ∨ x ∈ c.map Entry.id := by
  induction c with
  | nil => intro x hx; simp [l_add] at hx; exact Or.inl hx
  | cons e rest ih =>
    intro x hx
    by_cases hg : e.port > p
    · simp [l_add, hg] at hx ⊢; exact hx
    · by_cases he : e.port = p
      · rw [l_add, if_neg hg, if_pos he] at hx
        simp only [List.map_cons, List.mem_cons] at hx ⊢
        rcases hx with hx | hx
        · exact Or.inr (Or.inl hx)
        · exact Or.inr (Or.inr hx)
      · simp only [l_add, hg, he, if_false, List.map_cons, List.mem_cons] at hx ⊢
        rcases hx with hx | hx
        · exact Or.inr (Or.inl hx)
        · rcases ih x hx with h | h
          · exact Or.inl h
          · exact Or.inr (Or.inr h)

theorem l_add_sorted (n : Int) (p ip : Nat) (c : List Entry)
    (hs : (c.map Entry.port).Pairwise (fun a b => a < b)) :
    ((l_add n p ip c).map Entry.port).Pairwise (fun a b => a < b) := by
  induction c with
  | nil => simp [l_add]
  | cons e rest ih =>
    simp only [List.map_cons, List.pairwise_cons] at hs
    by_cases hg : e.port > p
    · simp only [l_add, hg, if_true, List.map_cons, List.pairwise_cons, List.mem_cons]
      refine ⟨?_, hs.1, hs.2⟩
      intro x hx
      rcases hx with hx | hx
      · omega
      · have := hs.1 x hx; omega
    · by_cases he : e.port = p
      · rw [l_add, if_neg hg, if_pos he]
        simp only [List.map_cons, List.pairwise_cons]
        exact hs
      · rw [l_add, if_neg hg, if_neg he]
        simp only [List.map_cons, List.pairwise_cons]
        refine ⟨?_, ih hs.2⟩
        intro x hx
        rcases l_add_ports n p ip rest x hx with h | h
        · omega
        · exact hs.1 x h

theorem l_add_nodup (n : Int) (p ip : Nat) (c : List Entry)
    (hd : (c.map Entry.id).Nodup) (hn : n ∉ c.map Entry.id) :
    ((l_add n p ip c).map Entry.id).Nodup := by
  induction c with
  | nil => simp [l_add]
  | cons e rest ih =>
    simp only [List.map_cons, List.nodup_cons] at hd
    simp only [List.map_cons, List.mem_cons, not_or] at hn
    by_cases hg : e.port > p
    · simp only [l_add, hg, if_true, List.map_cons, List.nodup_cons, List.mem_cons, not_or]
      exact ⟨⟨hn.1, hn.2⟩, hd.1, hd.2⟩
    · by_cases he : e.port = p
      · rw [l_add, if_neg hg, if_pos he]
        simp only [List.map_cons, List.nodup_cons]
        exact hd
      · rw [l_add, if_neg hg, if_neg he]
        simp only [List.map_cons, List.nodup_cons]
        refine ⟨?_, ih hd.2 hn.2⟩
        intro hx
        rcases l_add_ids n p ip rest _ hx with h | h
        · exact hn.1 h.symm
        · exact hd.1 h

theorem l_remove_sublist (p : Nat) (c : List Entry) :
    ∀ prev, List.Sublist (l_remove p prev c) c := by
  induction c with
  | nil => intro prev; simp [l_remove]
  | cons e rest ih =>
    intro prev
    by_cases hg : e.port > p
    · simp [l_remove, hg]
    · by_cases he : e.port = p
      · by_cases hz : prev = 0
        · simp [l_remove, he, hz]
        · simp [l_remove, he, hz]
      · rw [l_remove, if_neg hg, if_neg he]
        exact (ih e.id).cons₂ e

theorem l_add_filter (n : Int) (p ip : Nat) (c : List Entry)
    (hs : (c.map Entry.port).Pairwise (fun a b => a < b)) :
    ∃ i, (l_add n p ip c).filter (fun e => decide (e.port = p)) =
      [{ id := i, port := p, ip := ip }] := by
  have hnone : ∀ (r : List Entry), (∀ x ∈ r.map Entry.port, p < x) →
      r.filter (fun e => decide (e.port = p)) = [] := by
    intro r hr
    rw [List.filter_eq_nil_iff]
    intro a ha
    have := hr a.port (List.mem_map_of_mem _ ha)
    simp; omega
  induction c with
  | nil => exact ⟨n, by simp [l_add]⟩
  | cons e rest ih =>
    simp only [List.map_cons, List.pairwise_cons] at hs
    by_cases hg : e.port > p
    · refine ⟨n, ?_⟩
      have h1 : ∀ x ∈ (e :: rest).map Entry.port, p < x := by
        intro x hx
        simp only [List.map_cons, List.mem_cons] at hx
        rcases hx with hx | hx
        · omega
        · have := hs.1 x hx; omega
      rw [l_add, if_pos hg, List.filter_cons_of_pos (by simp), hnone _ h1]
    · by_cases he : e.port = p
      · refine ⟨e.id, ?_⟩
        have h1 : ∀ x ∈ rest.map Entry.port, p < x := by
          intro x hx
          have := hs.1 x hx; omega
        rw [l_add, if_neg hg, if_pos he, List.filter_cons_of_pos (by simp [he]),
          hnone _ h1, he]
      · obtain ⟨i, hi⟩ := ih hs.2
        refine ⟨i, ?_⟩
        rw [l_add, if_neg hg, if_neg he, List.filter_cons_of_neg (by simp [he]), hi]

/-! ## The operations on a well-formed map -/

theorem sem_lock_free (s : State) (h1 : s.semid ≠ -1) (h2 : s.semval = 1) :
    sem_lock s = some (0, { s with semval := 0 }) := by
  simp [sem_lock, sem_op, h1, h2]

theorem unlock_ret_held {α : Type} (s : State) (a : α) (h1 : s.semid ≠ -1)
    (h2 : s.semval = 0) : unlock_ret s a = .ret a { s with semval := 1 } := by
  simp [unlock_ret, sem_unlock, sem_op, h1, h2]

theorem Inv.fuel {s : State} {c : List Entry} (h : Inv s c) :
    c.length < s.segs.length + 1 :=
  Nat.lt_succ_of_le (IsChain.length_le c _ h.is_chain h.nodup)

theorem ip_map_init_inv (h sid : Int) (s : State) (hh : 0 ≤ h) (hs : 0 ≤ sid)
    (hi : ip_map_init h sid = some s) : Inv s [{ id := h, port := 0, ip := 0 }] := by
  have h1 : h ≠ -1 := by omega
  have h2 : sid ≠ -1 := by omega
  simp [ip_map_init, new_shared_map, h1, h2] at hi
  subst hi
  refine ⟨h2, rfl, ?_, ?_, ?_, ?_, ⟨_, _, rfl, rfl⟩⟩
  · simp [shmat, h1]
  · exact ⟨rfl, hh, -1, by simp [shmat], rfl⟩
  · simp
  · simp

theorem get_ip_spec (s : State) (c : List Entry) (h : Inv s c) (p : Nat) :
    get_ip s p = .ret (l_get p c) s := by
  have hl := get_ip_loop_spec p c (s.segs.length + 1) s.ip_map_id h.is_chain h.fuel
  have h1 := h.sem_id
  have h2 := h.sem_val
  obtain ⟨mid, sid, sv, segs⟩ := s
  simp only at hl h1 h2
  subst h2
  rw [get_ip, sem_lock_free _ h1 rfl]
  simp only [show ¬ ((0 : Int) = -1) by decide, if_false, hl]
  rw [unlock_ret_held _ _ h1 rfl]

theorem IsChain.nonneg {segs : Shm} : ∀ (c : List Entry) (id : Int),
    IsChain segs id c → ∀ i ∈ c.map Entry.id, 0 ≤ i := by
  intro c
  induction c with
  | nil => intro id _ i hi; simp at hi
  | cons e rest ih =>
    intro id h i hi
    obtain ⟨_, h2, nx, _, h4⟩ := h
    simp only [List.map_cons, List.mem_cons] at hi
    rcases hi with hi | hi
    · subst hi; exact h2
    · exact ih nx h4 i hi

theorem Inv.fresh {s : State} {c : List Entry} (h : Inv s c) (n : Int)
    (hf : shmat s.segs n = none) : n ∉ c.map Entry.id := by
  intro hn
  obtain ⟨m, hm⟩ := IsChain.valid c _ h.is_chain n hn
  rw [hf] at hm; cases hm

theorem add_ip_spec (s : State) (c : List Entry) (h : Inv s c) (n : Int) (p ip : Nat)
    (hn : 0 ≤ n) (hf : shmat s.segs n = none) (hip : ip ≠ 0xFFFFFFFF) :
    ∃ s1, add_ip s n p ip = .ret () s1 ∧ Inv s1 (l_add n p ip c) ∧
      s1.segs.map Prod.fst =
        (if l_hit p c then s.segs.map Prod.fst else n :: s.segs.map Prod.fst) ∧
      s1.ip_map_id = s.ip_map_id := by
  have hfuel := h.fuel
  have hfresh := h.fresh n hf
  have hsorted := l_add_sorted n p ip c h.sorted
  have hnodup := l_add_nodup n p ip c h.nodup hfresh
  obtain ⟨e0, rest, hc, hp0⟩ := h.head
  obtain ⟨h1, h2, h3, h4, h5, h6, _⟩ := h
  obtain ⟨mid, sid, sv, segs⟩ := s
  simp only at h1 h2 h3 h4 hf hfuel
  subst h2 hc
  obtain ⟨c1, c2, nx, c3, c4⟩ := h4
  subst c1
  simp only [List.map_cons, List.nodup_cons, List.mem_cons, not_or] at h5 hfresh
  simp only [List.length_cons, Nat.add_lt_add_iff_right] at hfuel
  rw [add_ip, if_neg hip, sem_lock_free _ h1 rfl]
  simp only [show ¬ ((0 : Int) = -1) by decide, if_false]
  by_cases hp : p = 0
  · subst hp
    have hb : add_ip_body segs n 0 ip (segs.length + 1) (-1) e0.id =
        .done (shm_write segs e0.id { port := e0.port, ip := ip, next := nx }) := by
      simp [add_ip_body, add_ip_loop, c2, c3, hp0]
    rw [hb]
    simp only
    rw [unlock_ret_held _ _ h1 rfl]
    refine ⟨_, rfl, ?_, ?_, rfl⟩
    · have hl : l_add n 0 ip (e0 :: rest) = { e0 with ip := ip } :: rest := by
        simp [l_add, hp0]
      rw [hl] at hsorted hnodup ⊢
      refine ⟨h1, rfl, ?_, ?_, hnodup, hsorted, ⟨_, _, rfl, hp0⟩⟩
      · have : (-1 : Int) ≠ e0.id := by omega
        simp only
        rw [shmat_write_ne _ _ _ _ this]; exact h3
      · refine ⟨rfl, c2, nx, shmat_write_same _ _ _ _ c3, ?_⟩
        refine IsChain.frame rest nx c4 ?_
        intro x hx
        have hxi : x.id ∈ rest.map Entry.id := List.mem_map_of_mem _ hx
        have hx1 : x.id ≠ e0.id := fun hh => h5.1 (hh ▸ hxi)
        exact shmat_write_ne _ _ _ _ hx1
    · simp [l_hit, hp0, shm_write_keys]
  · have hp1 : ¬ e0.port = p := by omega
    have hp2 : ¬ e0.port > p := by omega
    obtain ⟨segs1, nx1, e1, e2, e3, e4, e5⟩ :=
      add_ip_body_spec n p ip hn rest segs segs.length e0.id nx
        { port := e0.port, ip := e0.ip, next := nx } c4 c3 rfl h5.1 h5.2 hf hfuel
    have hb : add_ip_body segs n p ip (segs.length + 1) (-1) e0.id =
        add_ip_body segs n p ip segs.length e0.id nx := by
      simp [add_ip_body, add_ip_loop, c2, c3, hp1, hp2]
    rw [hb, e1]
    simp only
    rw [unlock_ret_held _ _ h1 rfl]
    refine ⟨_, rfl, ?_, ?_, rfl⟩
    · have hl : l_add n p ip (e0 :: rest) = e0 :: l_add n p ip rest := by
        simp [l_add, hp1, hp2]
      rw [hl] at hsorted hnodup ⊢
      refine ⟨h1, rfl, ?_, ⟨rfl, c2, nx1, e2, e3⟩, hnodup, hsorted, ⟨_, _, rfl, hp0⟩⟩
      simp only
      have a1 : (-1 : Int) ≠ e0.id := by omega
      have a2 : (-1 : Int) ≠ n := by omega
      have a3 : (-1 : Int) ∉ rest.map Entry.id := by
        intro hh
        have := IsChain.nonneg rest nx c4 _ hh
        omega
      rw [e4 _ a1 a2 a3]; exact h3
    · simpa [l_hit, hp1, hp2] using e5

theorem remove_ip_spec (s : State) (c : List Entry) (h : Inv s c) (p : Nat)
    (hp : p ≠ 0) :
    ∃ s1, remove_ip s p = .ret () s1 ∧ Inv s1 (l_remove p (-1) c) ∧
      ((∀ e ∈ c, e.port ≠ p) → s1 = s) ∧ s1.ip_map_id = s.ip_map_id := by
  have hfuel := h.fuel
  have hsub := l_remove_sublist p c (-1)
  have hsorted := h.sorted.sublist (hsub.map Entry.port)
  have hnodup := h.nodup.sublist (hsub.map Entry.id)
  obtain ⟨e0, rest, hc, hp0⟩ := h.head
  obtain ⟨h1, h2, h3, h4, h5, h6, _⟩ := h
  obtain ⟨mid, sid, sv, segs⟩ := s
  simp only at h1 h2 h3 h4 hfuel
  subst h2 hc
  obtain ⟨c1, c2, nx, c3, c4⟩ := h4
  subst c1
  simp only [List.map_cons, List.nodup_cons, List.mem_cons, not_or] at h5
  simp only [List.length_cons, Nat.add_lt_add_iff_right] at hfuel
  have hp1 : ¬ e0.port = p := by omega
  have hp2 : ¬ e0.port > p := by omega
  obtain ⟨segs1, nx1, e1, e2, e3, e4, e5⟩ :=
    remove_ip_loop_spec p rest segs segs.length e0.id nx
      { port := e0.port, ip := e0.ip, next := nx } c4 c3 rfl h5.1 h5.2 hfuel
  have hb : remove_ip_loop segs p (segs.length + 1) (-1) e0.id =
      remove_ip_loop segs p segs.length e0.id nx := by
    simp [remove_ip_loop, c2, c3, hp1, hp2]
  have hl : l_remove p (-1) (e0 :: rest) = e0 :: l_remove p e0.id rest := by
    simp [l_remove, hp1, hp2]
  rw [remove_ip, sem_lock_free _ h1 rfl]
  simp only [show ¬ ((0 : Int) = -1) by decide, if_false]
  rw [hb, e1]
  simp only
  rw [unlock_ret_held _ _ h1 rfl]
  refine ⟨_, rfl, ?_, ?_, rfl⟩
  · rw [hl] at hsorted hnodup ⊢
    refine ⟨h1, rfl, ?_, ⟨rfl, c2, nx1, e2, e3⟩, hnodup, hsorted, ⟨_, _, rfl, hp0⟩⟩
    simp only
    have a1 : (-1 : Int) ≠ e0.id := by omega
    have a3 : (-1 : Int) ∉ rest.map Entry.id := by
      intro hh
      have := IsChain.nonneg rest nx c4 _ hh
      omega
    rw [e4 _ a1 a3]; exact h3
  · intro hno
    have := e5 (fun x hx => hno x (List.mem_cons_of_mem _ hx))
    simp only [this]

theorem remove_ip_zero (s : State) (c : List Entry) (h : Inv s c) :
    remove_ip s 0 =
      .segv { s with semval := 0, segs := shmctl_rmid s.segs s.ip_map_id } := by
  obtain ⟨e0, rest, hc, hp0⟩ := h.head
  obtain ⟨h1, h2, h3, h4, h5, h6, _⟩ := h
  obtain ⟨mid, sid, sv, segs⟩ := s
  simp only at h1 h2 h3 h4
  subst h2 hc
  obtain ⟨c1, c2, nx, c3, c4⟩ := h4
  subst c1
  have hm : shmat (shmctl_rmid segs e0.id) (-1) = none := by
    rw [shmat_rmid, h3]; simp
  rw [remove_ip, sem_lock_free _ h1 rfl]
  simp only [show ¬ ((0 : Int) = -1) by decide, if_false]
  simp [remove_ip_loop, c2, c3, hp0, hm]

theorem Reachable.inv {s : State} (h : Reachable s) : ∃ c, Inv s c := by
  induction h with
  | init h sid s hh hs hi => exact ⟨_, ip_map_init_inv h sid s hh hs hi⟩
  | add s s1 n p ip _ hn hf _ ha ih =>
    obtain ⟨c, hc⟩ := ih
    by_cases hip : ip = 0xFFFFFFFF
    · rw [add_ip, if_pos hip] at ha
      cases ha; exact ⟨c, hc⟩
    · obtain ⟨s2, e1, e2, _⟩ := add_ip_spec s c hc n p ip hn hf hip
      rw [e1] at ha; cases ha; exact ⟨_, e2⟩
  | remove s s1 p _ ha ih =>
    obtain ⟨c, hc⟩ := ih
    by_cases hp : p = 0
    · subst hp
      rw [remove_ip_zero s c hc] at ha; cases ha
    · obtain ⟨s2, e1, e2, _⟩ := remove_ip_spec s c hc p hp
      rw [e1] at ha; cases ha; exact ⟨_, e2⟩

theorem Inv.chain_eq {s : State} {c : List Entry} (h : Inv s c) : chain s = some c :=
  chain_from_spec c _ _ h.is_chain h.fuel

theorem shmat_none_of_not_mem (segs : Shm) (i : Int) (h : i ∉ segs.map Prod.fst) :
    shmat segs i = none := by
  cases hs : shmat segs i with
  | none => rfl
  | some m => exact absurd (shmat_mem_keys segs i m hs) h

theorem exists_fresh (segs : Shm) : ∃ n : Int, 0 ≤ n ∧ shmat segs n = none := by
  obtain ⟨k, hk⟩ :=
    Infinite.exists_not_mem_finset ((segs.map (fun e => e.1.toNat)).toFinset)
  refine ⟨(k : Int), Int.ofNat_nonneg k, shmat_none_of_not_mem segs _ ?_⟩
  intro hmem
  apply hk
  rw [List.mem_toFinset]
  rw [List.mem_map] at hmem ⊢
  obtain ⟨e, he, hek⟩ := hmem
  exact ⟨e, he, by rw [hek]; rfl⟩

theorem add_ip_loop_hit (p ip : Nat) :
    ∀ (c : List Entry) (segs : Shm) (fuel : Nat) (prev next : Int),
    IsChain segs next c → l_hit p c = true → c.length < fuel →
    ∃ segs1, add_ip_loop segs p ip fuel prev next = .done (.updated segs1) := by
  intro c
  induction c with
  | nil => intro segs fuel prev next _ hh _; simp [l_hit] at hh
  | cons e rest ih =>
    intro segs fuel prev next hc hh hl
    obtain ⟨h1, h2, nx, h3, h4⟩ := hc
    cases fuel with
    | zero => simp at hl
    | succ f =>
      subst h1
      have hl1 : rest.length < f := by simpa using hl
      by_cases hg : e.port > p
      · simp [l_hit, hg] at hh
      · by_cases he : e.port = p
        · exact ⟨shm_write segs e.id { port := e.port, ip := ip, next := nx },
            by simp [add_ip_loop, h2, h3, hg, he]⟩
        · have hh1 : l_hit p rest = true := by simpa [l_hit, hg, he] using hh
          obtain ⟨segs1, e1⟩ := ih segs f e.id nx h4 hh1 hl1
          exact ⟨segs1, by simp [add_ip_loop, h2, h3, hg, he, e1]⟩

theorem add_ip_hit_indep (s : State) (c : List Entry) (h : Inv s c) (p ip : Nat)
    (hh : l_hit p c = true) (n n1 : Int) : add_ip s n p ip = add_ip s n1 p ip := by
  have hfuel := h.fuel
  obtain ⟨segs1, e1⟩ := add_ip_loop_hit p ip c s.segs (s.segs.length + 1) (-1)
    s.ip_map_id h.is_chain hh hfuel
  have h1 := h.sem_id
  have h2 := h.sem_val
  obtain ⟨mid, sid, sv, segs⟩ := s
  simp only at h1 h2 e1
  subst h2
  by_cases hip : ip = 0xFFFFFFFF
  · simp [add_ip, hip]
  · rw [add_ip, add_ip, if_neg hip, if_neg hip, sem_lock_free _ h1 rfl]
    simp only [add_ip_body, e1]

/-! ## The map: round trip, order, update, removal -/

/-- C1. Round trip: in every map state reached from `ip_map_init()` by
`add_ip`/`remove_ip` calls, for every port `p` and every ip other than
`0xFFFFFFFF`, `add_ip(p, ip)` returns and a following `get_ip(p)` returns
exactly `ip` (whatever new identifier `n` the allocator hands out). -/
theorem add_ip_get_ip_round_trip (s : State) (hr : Reachable s) (n : Int)
    (hn : 0 ≤ n) (hf : shmat s.segs n = none) (p ip : Nat)
    (hip : ip ≠ 0xFFFFFFFF) :
    ∃ s1, add_ip s n p ip = .ret () s1 ∧ get_ip s1 p = .ret ip s1 := by
  obtain ⟨c, hc⟩ := hr.inv
  obtain ⟨s1, e1, e2, _⟩ := add_ip_spec s c hc n p ip hn hf hip
  refine ⟨s1, e1, ?_⟩
  rw [get_ip_spec s1 _ e2 p, l_get_add_same]

/-- Witness of C1: port 22 stored in a freshly initialised map. -/
theorem add_ip_get_ip_round_trip_witness :
    ∃ s1, add_ip fresh_map 6 22 0x0A000002 = .ret () s1 ∧
      get_ip s1 22 = .ret 0x0A000002 s1 :=
  add_ip_get_ip_round_trip fresh_map
    (Reachable.init 5 7 fresh_map (by decide) (by decide) rfl) 6
    (by decide) rfl 22 0x0A000002 (by decide)

/-- C2. Ordering invariant: in every state reached from `ip_map_init()` by
calls of `add_ip` (and of `remove_ip` as well), walking the chain ends, and
the ports read from the head's successor to the end are strictly ascending,
so no port appears twice. -/
theorem chain_ports_ascending (s : State) (hr : Reachable s) :
    ∃ hd rest, chain s = some (hd :: rest) ∧
      (rest.map Entry.port).Pairwise (fun a b => a < b) ∧
      (rest.map Entry.port).Nodup := by
  obtain ⟨c, hc⟩ := hr.inv
  obtain ⟨e, rest, he, _⟩ := hc.head
  subst he
  have hs := hc.sorted
  simp only [List.map_cons, List.pairwise_cons] at hs
  exact ⟨e, rest, hc.chain_eq, hs.2, hs.2.imp (fun h => Nat.ne_of_lt h)⟩

/-- Witness of C2: the map after `add_ip(443, _)` then `add_ip(22, _)`. -/
theorem chain_ports_ascending_witness :
    ∃ hd rest,
      chain two_port_map = some (hd :: rest) ∧
      (rest.map Entry.port).Pairwise (fun a b => a < b) ∧
      (rest.map Entry.port).Nodup :=
  chain_ports_ascending two_port_map
    (Reachable.add _ _ 9 22 0x0A000002
      (Reachable.add _ _ 6 443 0x0A000001
        (Reachable.init 5 7 fresh_map (by decide) (by decide) rfl) (by decide) rfl
        (by decide) rfl)
      (by decide) rfl (by decide) rfl)

/-- C3, the code at a failing input: the head segment received identifier 0,
port 22 is added and then removed; `if(prev)` is false for the predecessor
`0`, nothing is removed and `get_ip(22)` still returns the ip. -/
theorem remove_ip_skipped_after_head_zero :
    ∃ s0 s1, ip_map_init 0 7 = some s0 ∧
      add_ip s0 1 22 0x0A000002 = .ret () s1 ∧
      remove_ip s1 22 = .ret () s1 ∧
      get_ip s1 22 = .ret 0x0A000002 s1 ∧
      chain s1 = some [{ id := 0, port := 0, ip := 0 },
                       { id := 1, port := 22, ip := 0x0A000002 }] :=
  ⟨_, _, rfl, rfl, rfl, rfl, rfl⟩

/-- C4, the code at a failing input: `remove_ip(0)` on a freshly initialised
map matches the head with `prev = -1`, which `if(prev)` takes as true; the
head segment is destroyed and the failed `shmat(-1)` is dereferenced. -/
theorem remove_ip_zero_destroys_head :
    ∃ s0, ip_map_init 5 7 = some s0 ∧ shmat s0.segs 5 ≠ none ∧
      remove_ip s0 0 = .segv { s0 with semval := 0, segs := [] } :=
  ⟨_, rfl, by decide, rfl⟩

/-- C5. Idempotent update: in every reachable map state, for every port `p`
and all `ip1`, `ip2` other than `0xFFFFFFFF`, `add_ip(p, ip1)` followed by
`add_ip(p, ip2)` leaves exactly one chain node with port `p`, its ip is
`ip2`, and the second call allocates no segment: the live segment
identifiers are the same before and after it, whatever `shmget` would have
returned. -/
theorem add_ip_twice_updates (s : State) (hr : Reachable s) (n1 : Int)
    (hn : 0 ≤ n1) (hf : shmat s.segs n1 = none) (n2 : Int) (p ip1 ip2 : Nat)
    (h1 : ip1 ≠ 0xFFFFFFFF) (h2 : ip2 ≠ 0xFFFFFFFF) :
    ∃ s1 s2 c i, add_ip s n1 p ip1 = .ret () s1 ∧
      add_ip s1 n2 p ip2 = .ret () s2 ∧
      chain s2 = some c ∧
      c.filter (fun e => decide (e.port = p)) = [{ id := i, port := p, ip := ip2 }] ∧
      s2.segs.map Prod.fst = s1.segs.map Prod.fst := by
  obtain ⟨c, hc⟩ := hr.inv
  obtain ⟨s1, e1, e2, _⟩ := add_ip_spec s c hc n1 p ip1 hn hf h1
  obtain ⟨n3, hn3, hf3⟩ := exists_fresh s1.segs
  have hhit := l_hit_add_same n1 p ip1 c
  obtain ⟨s2, e3, e4, e5, _⟩ := add_ip_spec s1 _ e2 n3 p ip2 hn3 hf3 h2
  rw [hhit, if_pos rfl] at e5
  rw [l_add_add] at e4
  obtain ⟨i, hi⟩ := l_add_filter n1 p ip2 c hc.sorted
  refine ⟨s1, s2, _, i, e1, ?_, e4.chain_eq, hi, e5⟩
  rw [add_ip_hit_indep s1 _ e2 p ip2 hhit n2 n3, e3]

/-- Witness of C5: port 22 written twice into a freshly initialised map. -/
theorem add_ip_twice_updates_witness :
    ∃ s1 s2 c i,
      add_ip fresh_map 6 22 0x0A000001 = .ret () s1 ∧
      add_ip s1 8 22 0x0A000002 = .ret () s2 ∧
      chain s2 = some c ∧
      c.filter (fun e => decide (e.port = 22)) =
        [{ id := i, port := 22, ip := 0x0A000002 }] ∧
      s2.segs.map Prod.fst = s1.segs.map Prod.fst :=
  add_ip_twice_updates fresh_map
    (Reachable.init 5 7 fresh_map (by decide) (by decide) rfl) 6
    (by decide) rfl 8 22 0x0A000001 0x0A000002 (by decide) (by decide)

/-- C6. Sentinel rejection: in every map state (reachable or not, semaphore
free or held) and for every port `p`, `add_ip(p, 0xFFFFFFFF)` returns with
the whole state unchanged, the semaphore never being operated on, and
`get_ip(q)` gives the same result after the call as before, for every `q`. -/
theorem add_ip_unknown_is_noop (s : State) (n : Int) (p : Nat) :
    ∃ s1, add_ip s n p 0xFFFFFFFF = .ret () s1 ∧ s1 = s ∧
      ∀ q, get_ip s1 q = get_ip s q :=
  ⟨s, by simp [add_ip], rfl, fun _ => rfl⟩

/-- C10. Removing an absent port is a no-op: in every reachable map state,
for every port `p` that no chain node carries, `remove_ip(p)` returns and
leaves the state as it was (no segment freed, no record modified). -/
theorem remove_ip_absent_is_noop (s : State) (hr : Reachable s) (p : Nat)
    (c : List Entry) (hc : chain s = some c) (hp : ∀ e ∈ c, e.port ≠ p) :
    remove_ip s p = .ret () s := by
  obtain ⟨c1, hc1⟩ := hr.inv
  have hcc : c1 = c := by
    have := hc1.chain_eq
    rw [hc] at this
    exact (Option.some.inj this).symm
  subst hcc
  obtain ⟨e, rest, he, he0⟩ := hc1.head
  have hp0 : p ≠ 0 := by
    intro h
    subst h
    exact hp e (by rw [he]; exact List.mem_cons_self _ _) he0
  obtain ⟨s1, e1, _, e3, _⟩ := remove_ip_spec s c1 hc1 p hp0
  rw [e1, e3 hp]

/-- Witness of C10: port 80 is absent from a map holding 22 and 443. -/
theorem remove_ip_absent_is_noop_witness :
    remove_ip two_port_map 80 = .ret () two_port_map :=
  remove_ip_absent_is_noop two_port_map
    (Reachable.add _ _ 9 22 0x0A000002
      (Reachable.add _ _ 6 443 0x0A000001
        (Reachable.init 5 7 fresh_map (by decide) (by decide) rfl) (by decide) rfl
        (by decide) rfl)
      (by decide) rfl (by decide) rfl)
    80 [{ id := 5, port := 0, ip := 0 }, { id := 9, port := 22, ip := 0x0A000002 },
        { id := 6, port := 443, ip := 0x0A000001 }] rfl (by decide)

/-! ## The query connection: one call -/

theorem sem_lock_cases (s s1 : State) (r : Int) (h : sem_lock s = some (r, s1)) :
    (r = -1 ∧ s1 = s ∧ s.semid = -1) ∨
      (r = 0 ∧ s.semid ≠ -1 ∧ 1 ≤ s.semval ∧
        s1 = { s with semval := s.semval - 1 }) := by
  unfold sem_lock sem_op at h
  by_cases h1 : s.semid = -1
  · rw [if_pos h1] at h
    cases h
    exact Or.inl ⟨rfl, rfl, h1⟩
  · rw [if_neg h1] at h
    by_cases h2 : 0 ≤ (s.semval : Int) + -1
    · rw [if_pos h2] at h
      cases h
      have h3 : ((s.semval : Int) + -1).toNat = s.semval - 1 := by omega
      rw [h3]
      exact Or.inr ⟨rfl, h1, by omega, rfl⟩
    · rw [if_neg h2] at h
      cases h

theorem unlock_ret_spec {α : Type} (s : State) (a : α) (h1 : s.semid ≠ -1) :
    unlock_ret s a = .ret a { s with semval := s.semval + 1 } := by
  have h2 : 0 ≤ (s.semval : Int) + 1 := by omega
  have h3 : ((s.semval : Int) + 1).toNat = s.semval + 1 := by omega
  simp only [unlock_ret, sem_unlock, sem_op, if_neg h1, if_pos h2, h3]

theorem get_ip_ret_state (s s1 : State) (p ip : Nat) (h : get_ip s p = .ret ip s1) :
    s1 = s := by
  unfold get_ip at h
  cases hl : sem_lock s with
  | none => rw [hl] at h; cases h
  | some rs =>
    obtain ⟨r, s2⟩ := rs
    rw [hl] at h
    rcases sem_lock_cases s s2 r hl with ⟨hr, hs, _⟩ | ⟨hr, hid, hv, hs⟩
    · subst hr hs
      simp only [if_true] at h
      cases h; rfl
    · subst hr hs
      simp only [show ¬ ((0 : Int) = -1) by decide, if_false] at h
      split at h
      · rw [unlock_ret_spec { s with semval := s.semval - 1 } _ hid] at h
        cases h
        obtain ⟨mid, sid, sv, segs⟩ := s
        simp only at hv ⊢
        have : sv - 1 + 1 = sv := by omega
        rw [this]
      · cases h
      · cases h
      · cases h

theorem read_loop_full (rds : List ReadRes) (q : map_queue) (h : q.size_r = 2) :
    read_loop rds q = (none, q, rds) := by
  have hc : ¬ q.size_r % SIZE_MOD < 2 := by rw [h]; unfold SIZE_MOD; omega
  cases rds <;> simp only [read_loop, if_neg hc]

theorem read_loop_eagain (rest : List ReadRes) (q : map_queue) (k : Nat)
    (h : q.size_r = k) (hk : k < 2) :
    read_loop (.err .EAGAIN :: rest) q = (some .FD_NODATA, q, rest) := by
  have hc : q.size_r % SIZE_MOD < 2 := by rw [h]; unfold SIZE_MOD; omega
  simp only [read_loop, if_pos hc]

theorem read_loop_data (rest : List ReadRes) (q : map_queue) (k : Nat)
    (bs : List Nat) (h : q.size_r = k) (hb : bs ≠ []) (hl : k + bs.length ≤ 2) :
    read_loop (.data bs :: rest) q =
      read_loop rest { q with port := buf_store q.port k bs,
                              size_r := ((k + bs.length : Nat) : Int) } := by
  have hpos : 0 < bs.length := List.length_pos.mpr hb
  have hc : q.size_r % SIZE_MOD < 2 := by rw [h]; unfold SIZE_MOD; omega
  have h2 : ((2 - q.size_r) % SIZE_MOD).toNat = 2 - k := by
    rw [h]; unfold SIZE_MOD; omega
  have h3 : bs.take (2 - k) = bs := List.take_of_length_le (by omega)
  have h4 : ¬ bs.length = 0 := by omega
  have h5 : q.size_r.toNat = k := by rw [h]; omega
  have h6 : q.size_r + (bs.length : Int) = ((k + bs.length : Nat) : Int) := by
    rw [h]; push_cast; rfl
  simp only [read_loop, if_pos hc, h2, h3, if_neg h4, h5, h6]

theorem write_loop_full (wrs : List WriteRes) (q : map_queue) (h : q.size_w = 4) :
    write_loop wrs q = (none, q, wrs, []) := by
  have hc : ¬ q.size_w % SIZE_MOD < 4 := by rw [h]; unfold SIZE_MOD; omega
  cases wrs <;> simp only [write_loop, if_neg hc]

theorem write_loop_eagain (rest : List WriteRes) (q : map_queue) (k : Nat)
    (h : q.size_w = k) (hk : k < 4) :
    write_loop (.err .EAGAIN :: rest) q = (some .FD_STALLED, q, rest, []) := by
  have hc : q.size_w % SIZE_MOD < 4 := by rw [h]; unfold SIZE_MOD; omega
  simp only [write_loop, if_pos hc]

theorem write_loop_room (rest : List WriteRes) (q : map_queue) (k n : Nat)
    (h : q.size_w = k) (hk : k < 4) (hn : k + n ≤ 4) :
    write_loop (.room n :: rest) q =
      ((write_loop rest { q with size_w := ((k + n : Nat) : Int) }).1,
       (write_loop rest { q with size_w := ((k + n : Nat) : Int) }).2.1,
       (write_loop rest { q with size_w := ((k + n : Nat) : Int) }).2.2.1,
       (q.ip.toList.drop k).take n ++
         (write_loop rest { q with size_w := ((k + n : Nat) : Int) }).2.2.2) := by
  have hc : q.size_w % SIZE_MOD < 4 := by rw [h]; unfold SIZE_MOD; omega
  have h2 : ((4 - q.size_w) % SIZE_MOD).toNat = 4 - k := by
    rw [h]; unfold SIZE_MOD; omega
  have h3 : min n (4 - k) = n := by omega
  have h5 : q.size_w.toNat = k := by rw [h]; omega
  have h6 : q.size_w + (n : Int) = ((k + n : Nat) : Int) := by
    rw [h]; push_cast; rfl
  simp only [write_loop, if_pos hc, h2, h3, h5, h6]

theorem resolve_known (q : map_queue) (s s1 : State) (ip : Nat)
    (hg : get_ip s (ntohs q.port) = .ret ip s1)
    (hq : q.ip = ip_unknown ∨ q.ip = htonl ip) :
    resolve q s = some ({ q with ip := htonl ip }, s) := by
  have hs := get_ip_ret_state s s1 _ ip hg
  subst hs
  by_cases hu : q.ip = ip_unknown
  · simp [resolve, hu, hg]
  · rcases hq with hq | hq
    · exact absurd hq hu
    · simp only [resolve, hu, if_false]
      rw [← hq]

theorem hc_read_data (q : map_queue) (s : State) (rest : List ReadRes)
    (wrs : List WriteRes) (k : Nat) (bs : List Nat) (h : q.size_r = k)
    (hb : bs ≠ []) (hl : k + bs.length ≤ 2) :
    handle_connection q s (.data bs :: rest) wrs =
      handle_connection { q with port := buf_store q.port k bs,
                                 size_r := ((k + bs.length : Nat) : Int) } s rest wrs := by
  simp only [handle_connection, read_loop_data rest q k bs h hb hl]

theorem hc_read_eagain (q : map_queue) (s : State) (rest : List ReadRes)
    (wrs : List WriteRes) (k : Nat) (h : q.size_r = k) (hk : k < 2) :
    handle_connection q s (.err .EAGAIN :: rest) wrs =
      { ret := .FD_NODATA, q := q, s := s, rds := rest, wrs := wrs, out := [] } := by
  simp only [handle_connection, read_loop_eagain rest q k h hk]

theorem hc_write_done (q : map_queue) (s s1 : State) (rds : List ReadRes)
    (wrs : List WriteRes) (ip : Nat) (hr : q.size_r = 2) (hw : q.size_w = 4)
    (hg : get_ip s (ntohs q.port) = .ret ip s1)
    (hq : q.ip = ip_unknown ∨ q.ip = htonl ip) :
    handle_connection q s rds wrs =
      { ret := .one, q := { q with size_r := 0, size_w := 0, ip := ip_unknown },
        s := s, rds := rds, wrs := wrs, out := [] } := by
  simp only [handle_connection, read_loop_full rds q hr, resolve_known q s s1 ip hg hq,
    write_loop_full wrs { q with ip := htonl ip } hw]

theorem hc_write_eagain (q : map_queue) (s s1 : State) (rds : List ReadRes)
    (rest : List WriteRes) (ip k : Nat) (hr : q.size_r = 2) (hw : q.size_w = k)
    (hk : k < 4) (hg : get_ip s (ntohs q.port) = .ret ip s1)
    (hq : q.ip = ip_unknown ∨ q.ip = htonl ip) :
    handle_connection q s rds (.err .EAGAIN :: rest) =
      { ret := .FD_STALLED, q := { q with ip := htonl ip }, s := s, rds := rds,
        wrs := rest, out := [] } := by
  simp only [handle_connection, read_loop_full rds q hr, resolve_known q s s1 ip hg hq,
    write_loop_eagain rest { q with ip := htonl ip } k hw hk]

theorem hc_write_room (q : map_queue) (s s1 : State) (rds : List ReadRes)
    (rest : List WriteRes) (ip k n : Nat) (hr : q.size_r = 2) (hw : q.size_w = k)
    (hk : k < 4) (hn : k + n ≤ 4) (hg : get_ip s (ntohs q.port) = .ret ip s1)
    (hq : q.ip = ip_unknown ∨ q.ip = htonl ip) :
    handle_connection q s rds (.room n :: rest) =
      { handle_connection { q with size_w := ((k + n : Nat) : Int) } s rds rest with
        out := ((htonl ip).toList.drop k).take n ++
          (handle_connection { q with size_w := ((k + n : Nat) : Int) } s rds rest).out } := by
  have hr1 : ({ q with size_w := ((k + n : Nat) : Int) } : map_queue).size_r = 2 := hr
  have hres := resolve_known { q with size_w := ((k + n : Nat) : Int) } s s1 ip hg hq
  simp only [handle_connection, read_loop_full rds q hr, resolve_known q s s1 ip hg hq,
    write_loop_room rest { q with ip := htonl ip } k n hw hk hn,
    read_loop_full rds _ hr1, hres]
  rcases write_loop rest { q with size_w := ((k + n : Nat) : Int), ip := htonl ip }
    with ⟨r, q3, w1, o⟩
  cases r <;> rfl

/-! ## The query connection: a whole cycle -/

theorem serve_out_prepend (fuel : Nat) (q q1 : map_queue) (s : State)
    (rds rds1 : List ReadRes) (wrs wrs1 : List WriteRes) (pre : List Nat)
    (h : handle_connection q s rds wrs =
      { handle_connection q1 s rds1 wrs1 with
        out := pre ++ (handle_connection q1 s rds1 wrs1).out }) :
    serve (fuel + 1) q s rds wrs =
      { serve (fuel + 1) q1 s rds1 wrs1 with
        out := pre ++ (serve (fuel + 1) q1 s rds1 wrs1).out } := by
  simp only [serve, h]
  rcases handle_connection q1 s rds1 wrs1 with ⟨r, q2, s2, r2, w2, o2⟩
  cases r <;> simp only [List.append_assoc]

theorem serve_write (s s1 : State) (ip : Nat) (rds : List ReadRes) :
    ∀ (wrs : List WriteRes) (fuel : Nat) (q : map_queue) (k m : Nat),
    q.size_r = 2 → q.size_w = k → get_ip s (ntohs q.port) = .ret ip s1 →
    (q.ip = ip_unknown ∨ q.ip = htonl ip) → write_room wrs = some m → k + m = 4 →
    wrs.length < fuel →
    ∃ wrs1, serve fuel q s rds wrs =
      { ret := .one, q := { q with size_r := 0, size_w := 0, ip := ip_unknown },
        s := s, rds := rds, wrs := wrs1, out := (htonl ip).toList.drop k } := by
  intro wrs
  induction wrs with
  | nil =>
    intro fuel q k m hr hw hg hq hm hkm hl
    cases fuel with
    | zero => simp at hl
    | succ f =>
      simp only [write_room, Option.some.injEq] at hm
      have hk : k = 4 := by omega
      subst hk
      refine ⟨[], ?_⟩
      simp only [serve, hc_write_done q s s1 rds [] ip hr hw hg hq]
      rfl
  | cons w rest ih =>
    intro fuel q k m hr hw hg hq hm hkm hl
    cases fuel with
    | zero => simp at hl
    | succ f =>
      have hl1 : rest.length < f := by simpa using hl
      by_cases hk : k = 4
      · subst hk
        refine ⟨w :: rest, ?_⟩
        simp only [serve, hc_write_done q s s1 rds (w :: rest) ip hr hw hg hq]
        rfl
      · have hk4 : k < 4 := by omega
        cases w with
        | room n =>
          simp only [write_room] at hm
          cases hmr : write_room rest with
          | none => rw [hmr] at hm; cases hm
          | some more =>
            rw [hmr] at hm
            simp only [Option.some.injEq] at hm
            have hn : k + n ≤ 4 := by omega
            obtain ⟨wrs1, e1⟩ := ih (f + 1) { q with size_w := ((k + n : Nat) : Int) }
              (k + n) more hr rfl hg hq hmr (by omega) (by omega)
            refine ⟨wrs1, ?_⟩
            rw [serve_out_prepend f q _ s rds rds _ rest _
              (hc_write_room q s s1 rds rest ip k n hr hw hk4 hn hg hq), e1]
            simp only [HcOut.mk.injEq, true_and]
            rw [← List.drop_drop, List.take_append_drop]
        | err e =>
          cases e with
          | EAGAIN =>
            simp only [write_room] at hm
            obtain ⟨wrs1, e1⟩ := ih f { q with ip := htonl ip } k m hr hw hg
              (Or.inr rfl) hm hkm hl1
            refine ⟨wrs1, ?_⟩
            simp only [serve, hc_write_eagain q s s1 rds rest ip k hr hw hk4 hg hq, e1,
              List.nil_append]
          | ECONNRESET => simp [write_room] at hm
          | EPIPE => simp [write_room] at hm
          | other => simp [write_room] at hm

theorem buf_store_append (xs ys : List Nat) : ∀ (b : Bytes2) (k : Nat),
    buf_store (buf_store b k xs) (k + xs.length) ys = buf_store b k (xs ++ ys) := by
  induction xs with
  | nil => intro b k; simp [buf_store]
  | cons x rest ih =>
    intro b k
    have h1 : k + (x :: rest).length = (k + 1) + rest.length := by
      simp only [List.length_cons]; omega
    have h2 : (x :: rest) ++ ys = x :: (rest ++ ys) := rfl
    rw [h1, h2]
    simp only [buf_store]
    exact ih (b.set k x) (k + 1)

theorem serve_read (s s1 : State) (ip : Nat) (wrs : List WriteRes)
    (hw : write_room wrs = some 4) :
    ∀ (rds : List ReadRes) (fuel : Nat) (q : map_queue) (k : Nat) (bs : List Nat),
    q.size_r = k → k < 2 → q.size_w = 0 → q.ip = ip_unknown →
    read_data rds = some bs → k + bs.length = 2 →
    get_ip s (ntohs (buf_store q.port k bs)) = .ret ip s1 →
    rds.length + wrs.length < fuel →
    ∃ rds1 wrs1, serve fuel q s rds wrs =
      { ret := .one,
        q := { q with port := buf_store q.port k bs, size_r := 0, size_w := 0,
                      ip := ip_unknown },
        s := s, rds := rds1, wrs := wrs1, out := (htonl ip).toList } := by
  intro rds
  induction rds with
  | nil =>
    intro fuel q k bs _ hk _ _ hd hkb _ _
    simp only [read_data, Option.some.injEq] at hd
    subst hd
    simp at hkb
    omega
  | cons r rest ih =>
    intro fuel q k bs hr hk hsw hip hd hkb hg hl
    cases fuel with
    | zero => simp at hl
    | succ f =>
      have hl1 : rest.length + wrs.length < f := by
        simp only [List.length_cons] at hl; omega
      cases r with
      | data chunk =>
        cases chunk with
        | nil => simp [read_data] at hd
        | cons b bs1 =>
          simp only [read_data] at hd
          cases hmr : read_data rest with
          | none => rw [hmr] at hd; cases hd
          | some more =>
            rw [hmr] at hd
            simp only [Option.some.injEq] at hd
            subst hd
            have hlen : k + (b :: bs1).length + more.length = 2 := by
              simp only [List.length_cons, List.length_append] at hkb ⊢; omega
            have hstep : serve (f + 1) q s (.data (b :: bs1) :: rest) wrs =
                serve (f + 1)
                  { q with port := buf_store q.port k (b :: bs1),
                           size_r := ((k + (b :: bs1).length : Nat) : Int) }
                  s rest wrs := by
              simp only [serve, hc_read_data q s rest wrs k (b :: bs1) hr
                (List.cons_ne_nil _ _) (by omega)]
            rw [hstep]
            by_cases hk2 : k + (b :: bs1).length < 2
            · obtain ⟨rds1, wrs1, e1⟩ := ih (f + 1)
                  { q with port := buf_store q.port k (b :: bs1),
                           size_r := ((k + (b :: bs1).length : Nat) : Int) }
                  (k + (b :: bs1).length) more rfl hk2 hsw hip hmr hlen
                (by rw [buf_store_append]; exact hg) (by omega)
              refine ⟨rds1, wrs1, ?_⟩
              rw [e1]
              simp only [buf_store_append]
            · have hm0 : more = [] := List.length_eq_zero.mp (by omega)
              subst hm0
              have hk3 : ((k + (b :: bs1).length : Nat) : Int) = 2 := by
                have : k + (b :: bs1).length = 2 := by omega
                rw [this]; rfl
              obtain ⟨wrs1, e1⟩ := serve_write s s1 ip rest wrs (f + 1)
                  { q with port := buf_store q.port k (b :: bs1),
                           size_r := ((k + (b :: bs1).length : Nat) : Int) }
                  0 4 hk3 hsw (by simpa using hg) (Or.inl hip) hw rfl (by omega)
              refine ⟨rest, wrs1, ?_⟩
              rw [e1]
              simp
      | err e =>
        cases e with
        | EAGAIN =>
          simp only [read_data] at hd
          obtain ⟨rds1, wrs1, e1⟩ := ih f q k bs hr hk hsw hip hd hkb hg hl1
          refine ⟨rds1, wrs1, ?_⟩
          simp only [serve, hc_read_eagain q s rest wrs k hr hk, e1, List.nil_append]
        | ECONNRESET => simp [read_data] at hd
        | EPIPE => simp [read_data] at hd
        | other => simp [read_data] at hd

theorem ntohs_request (b : Bytes2) (p : Nat) (hp : p < 65536) :
    ntohs (buf_store b 0 (request p)) = p := by
  simp only [request, buf_store, Bytes2.set, ntohs, if_true, if_false,
    show ¬ ((0 : Nat) + 1 = 0) by decide, show (0 : Nat) + 1 = 1 by decide]
  omega

theorem run_cycle_spec (s s1 : State) (p ip : Nat) (hp : p < 65536)
    (hg : get_ip s p = .ret ip s1) (q : map_queue) (hr : q.size_r = 0)
    (hw : q.size_w = 0) (hi : q.ip = ip_unknown) (rds : List ReadRes)
    (wrs : List WriteRes) (hrd : read_data rds = some (request p))
    (hwr : write_room wrs = some 4) :
    ∃ rds1 wrs1, run_cycle q s rds wrs =
      { ret := .one,
        q := { q with port := buf_store q.port 0 (request p), size_r := 0,
                      size_w := 0, ip := ip_unknown },
        s := s, rds := rds1, wrs := wrs1, out := (htonl ip).toList } :=
  serve_read s s1 ip wrs hwr rds _ q 0 (request p) hr (by decide) hw hi hrd rfl
    (by rw [ntohs_request q.port p hp]; exact hg) (Nat.lt_succ_self _)

theorem read_loop_not_one : ∀ (rds : List ReadRes) (q : map_queue),
    (read_loop rds q).1 ≠ some .one := by
  intro rds
  induction rds with
  | nil =>
    intro q
    simp only [read_loop]
    split <;> simp
  | cons r rest ih =>
    intro q
    simp only [read_loop]
    split
    · cases r with
      | data bs =>
        simp only
        split
        · simp
        · exact ih _
      | err e => cases e <;> simp
    · simp

theorem write_loop_not_one : ∀ (wrs : List WriteRes) (q : map_queue),
    (write_loop wrs q).1 ≠ some .one := by
  intro wrs
  induction wrs with
  | nil =>
    intro q
    simp only [write_loop]
    split <;> simp
  | cons w rest ih =>
    intro q
    simp only [write_loop]
    split
    · cases w with
      | room n => exact ih _
      | err e => cases e <;> simp
    · simp

theorem write_loop_port : ∀ (wrs : List WriteRes) (q : map_queue),
    (write_loop wrs q).2.1.port = q.port := by
  intro wrs
  induction wrs with
  | nil =>
    intro q
    simp only [write_loop]
    split <;> rfl
  | cons w rest ih =>
    intro q
    simp only [write_loop]
    split
    · cases w with
      | room n => exact ih _
      | err e => cases e <;> rfl
    · rfl

theorem resolve_port (q q2 : map_queue) (s s2 : State)
    (h : resolve q s = some (q2, s2)) : q2.port = q.port := by
  unfold resolve at h
  split at h
  · split at h
    · cases h; rfl
    · cases h
  · cases h; rfl

theorem hc_one_reset (q : map_queue) (s : State) (rds : List ReadRes)
    (wrs : List WriteRes) (h : (handle_connection q s rds wrs).ret = .one) :
    (handle_connection q s rds wrs).q.size_r = 0 ∧
      (handle_connection q s rds wrs).q.size_w = 0 ∧
      (handle_connection q s rds wrs).q.ip = ip_unknown ∧
      (handle_connection q s rds wrs).q.port = (read_loop rds q).2.1.port := by
  have hr := read_loop_not_one rds q
  unfold handle_connection at h ⊢
  rcases hrl : read_loop rds q with ⟨r, q1, rds1⟩
  rw [hrl] at h hr
  cases r with
  | some r1 =>
    simp only at h hr
    exact absurd (congrArg some h) hr
  | none =>
    simp only at h ⊢
    cases hres : resolve q1 s with
    | none => rw [hres] at h; cases h
    | some qs =>
      obtain ⟨q2, s2⟩ := qs
      rw [hres] at h
      simp only at h ⊢
      have hw := write_loop_not_one wrs q2
      have hp := write_loop_port wrs q2
      rcases hwl : write_loop wrs q2 with ⟨r, q3, wrs1, out⟩
      rw [hwl] at h hw hp
      cases r with
      | some r1 =>
        simp only at h hw
        exact absurd (congrArg some h) hw
      | none =>
        simp only at hp ⊢
        exact ⟨trivial, trivial, trivial, by rw [hp, resolve_port q1 q2 s s2 hres]⟩

/-! ## The query connection: resumability, persistence, reset -/

/-- C7. Protocol resumability: for every map state `s` in which `get_ip(p)`
returns (the state is held fixed during the cycle), every request port `p`,
and every schedule in which `read` delivers the two request bytes in any
split, with `EAGAIN` in between, and `write` takes the reply in any split,
with `EAGAIN` in between, the cycle started on a `map_queue` at rest ends with
`handle_connection` returning 1, and the bytes written during the cycle,
concatenated, are the four bytes of `get_ip(p)` in network byte order, the same
as when both request bytes arrive at once and the reply is written in one
call. -/
theorem handle_connection_resumable (s s1 : State) (p ip : Nat) (hp : p < 65536)
    (hg : get_ip s p = .ret ip s1) (q : map_queue) (hr : q.size_r = 0)
    (hw : q.size_w = 0) (hi : q.ip = ip_unknown) (rds : List ReadRes)
    (wrs : List WriteRes) (hrd : read_data rds = some (request p))
    (hwr : write_room wrs = some 4) :
    (run_cycle q s rds wrs).ret = .one ∧
      (run_cycle q s rds wrs).out = (htonl ip).toList ∧
      (run_cycle q s rds wrs).out =
        (run_cycle q s [.data (request p)] [.room 4]).out := by
  obtain ⟨rds1, wrs1, e1⟩ := run_cycle_spec s s1 p ip hp hg q hr hw hi rds wrs hrd hwr
  obtain ⟨rds2, wrs2, e2⟩ := run_cycle_spec s s1 p ip hp hg q hr hw hi
    [.data (request p)] [.room 4] (by simp [request, read_data]) rfl
  rw [e1, e2]
  exact ⟨rfl, rfl, rfl⟩

/-- Witness of C7: port 22 mapped to `0x01020304`, the request arriving one
byte at a time and the reply leaving in pieces of 1, 0 and 3 bytes. -/
theorem handle_connection_resumable_witness :
    (run_cycle (new_map_queue 3) ssh_map
        [.data [0], .err .EAGAIN, .data [22]]
        [.err .EAGAIN, .room 1, .room 0, .err .EAGAIN, .room 3]).ret = .one ∧
      (run_cycle (new_map_queue 3) ssh_map
        [.data [0], .err .EAGAIN, .data [22]]
        [.err .EAGAIN, .room 1, .room 0, .err .EAGAIN, .room 3]).out
        = (htonl 0x01020304).toList ∧
      (run_cycle (new_map_queue 3) ssh_map
        [.data [0], .err .EAGAIN, .data [22]]
        [.err .EAGAIN, .room 1, .room 0, .err .EAGAIN, .room 3]).out
        = (run_cycle (new_map_queue 3) ssh_map [.data (request 22)] [.room 4]).out :=
  handle_connection_resumable ssh_map ssh_map 22 0x01020304 (by decide) rfl
    (new_map_queue 3) rfl rfl rfl _ _ rfl rfl

/-- C8. Persistent connection: once a call of `handle_connection` has
returned 1 on a `map_queue` (whatever port that cycle served and whatever the
map was), feeding the same `map_queue` the two bytes of a port `p2` makes it
look `p2` up afresh in the current map and write the four network-order bytes
of `get_ip(p2)`. -/
theorem handle_connection_persistent (q0 : map_queue) (s0 : State)
    (rds0 : List ReadRes) (wrs0 : List WriteRes)
    (h1 : (handle_connection q0 s0 rds0 wrs0).ret = .one)
    (s s1 : State) (p2 ip2 : Nat) (hp : p2 < 65536)
    (hg : get_ip s p2 = .ret ip2 s1) (rds : List ReadRes) (wrs : List WriteRes)
    (hrd : read_data rds = some (request p2)) (hwr : write_room wrs = some 4) :
    (run_cycle (handle_connection q0 s0 rds0 wrs0).q s rds wrs).ret = .one ∧
      (run_cycle (handle_connection q0 s0 rds0 wrs0).q s rds wrs).out =
        (htonl ip2).toList := by
  obtain ⟨a1, a2, a3, _⟩ := hc_one_reset q0 s0 rds0 wrs0 h1
  obtain ⟨rds1, wrs1, e1⟩ := run_cycle_spec s s1 p2 ip2 hp hg _ a1 a2 a3 rds wrs hrd hwr
  rw [e1]
  exact ⟨rfl, rfl⟩

/-- Witness of C8: a cycle for port 22 on `ssh_map`, then a cycle for port 443
on `two_port_map` on the same `map_queue`. -/
theorem handle_connection_persistent_witness :
    (run_cycle
        (handle_connection (new_map_queue 3) ssh_map [.data [0, 22]] [.room 4]).q
        two_port_map [.data [1], .data [187]] [.room 2, .room 2]).ret = .one ∧
      (run_cycle
        (handle_connection (new_map_queue 3) ssh_map [.data [0, 22]] [.room 4]).q
        two_port_map [.data [1], .data [187]] [.room 2, .room 2]).out
        = (htonl 0x0A000001).toList :=
  handle_connection_persistent (new_map_queue 3) ssh_map [.data [0, 22]] [.room 4] rfl
    two_port_map two_port_map 443 0x0A000001 (by decide) rfl _ _ rfl rfl

/-- C9, as stated, fails: after a cycle for port 22 `handle_connection` returns
1 with both cursors at zero, but the ip buffer holds `0xFFFFFFFF` and the port
buffer still holds the request, so they are not all zero. -/
theorem reset_buffers_not_zero :
    (handle_connection (new_map_queue 3) ssh_map [.data [0, 22]] [.room 4]).ret = .one ∧
      ¬ ((handle_connection (new_map_queue 3) ssh_map [.data [0, 22]] [.room 4]).q.size_r = 0 ∧
         (handle_connection (new_map_queue 3) ssh_map [.data [0, 22]] [.room 4]).q.size_w = 0 ∧
         (handle_connection (new_map_queue 3) ssh_map [.data [0, 22]] [.room 4]).q.port
            = { b0 := 0, b1 := 0 } ∧
         (handle_connection (new_map_queue 3) ssh_map [.data [0, 22]] [.room 4]).q.ip
            = { b0 := 0, b1 := 0, b2 := 0, b3 := 0 }) := by
  decide

/-- C9, amended. Reset: whenever `handle_connection` returns 1, the read
cursor `size_r` and the write cursor `size_w` are zero, the ip buffer holds
`0xFFFFFFFF` (the marker `new_map_queue` sets), and the port buffer is not
cleared: it holds the request bytes as the read loop left them. -/
theorem handle_connection_reset (q : map_queue) (s : State) (rds : List ReadRes)
    (wrs : List WriteRes) (h : (handle_connection q s rds wrs).ret = .one) :
    (handle_connection q s rds wrs).q.size_r = 0 ∧
      (handle_connection q s rds wrs).q.size_w = 0 ∧
      (handle_connection q s rds wrs).q.ip = ip_unknown ∧
      (handle_connection q s rds wrs).q.port = (read_loop rds q).2.1.port :=
  hc_one_reset q s rds wrs h

/-- Witness of C9 (amended): the cycle for port 22 on `ssh_map`. -/
theorem handle_connection_reset_witness :
    (handle_connection (new_map_queue 3) ssh_map [.data [0, 22]] [.room 4]).q.size_r = 0 ∧
      (handle_connection (new_map_queue 3) ssh_map [.data [0, 22]] [.room 4]).q.size_w = 0 ∧
      (handle_connection (new_map_queue 3) ssh_map [.data [0, 22]] [.room 4]).q.ip
        = ip_unknown ∧
      (handle_connection (new_map_queue 3) ssh_map [.data [0, 22]] [.room 4]).q.port
        = (read_loop [.data [0, 22]] (new_map_queue 3)).2.1.port :=
  handle_connection_reset (new_map_queue 3) ssh_map [.data [0, 22]] [.room 4] rfl

/-! ## Locality of the mutations -/

theorem l_get_add_other (n : Int) (p q ip : Nat) (hq : q ≠ p) (c : List Entry) :
    l_get q (l_add n p ip c) = l_get q c := by
  induction c with
  | nil =>
    by_cases h1 : p > q
    · simp [l_add, l_get, h1]
    · have h2 : ¬ p = q := fun h => hq h.symm
      simp [l_add, l_get, h1, h2]
  | cons e rest ih =>
    by_cases hg : e.port > p
    · rw [l_add, if_pos hg]
      by_cases h1 : p > q
      · have h3 : e.port > q := by omega
        simp [l_get, h1, h3]
      · have h2 : ¬ p = q := fun h => hq h.symm
        simp [l_get, h1, h2]
    · by_cases he : e.port = p
      · rw [l_add, if_neg hg, if_pos he]
        have h2 : ¬ e.port = q := by omega
        simp [l_get, h2]
      · rw [l_add, if_neg hg, if_neg he]
        simp only [l_get, ih]

theorem l_get_above (q : Nat) (c : List Entry)
    (h : ∀ x ∈ c.map Entry.port, q < x) : l_get q c = 0 := by
  cases c with
  | nil => rfl
  | cons e rest =>
    have : e.port > q := h e.port (by simp)
    simp [l_get, this]

theorem l_get_remove_other (p q : Nat) (hq : q ≠ p) (c : List Entry)
    (hs : (c.map Entry.port).Pairwise (fun a b => a < b)) :
    ∀ prev, l_get q (l_remove p prev c) = l_get q c := by
  induction c with
  | nil => intro prev; rfl
  | cons e rest ih =>
    intro prev
    simp only [List.map_cons, List.pairwise_cons] at hs
    by_cases hg : e.port > p
    · rw [l_remove, if_pos hg]
    · by_cases he : e.port = p
      · rw [l_remove, if_neg hg, if_pos he]
        by_cases hz : prev = 0
        · rw [if_neg (not_not.mpr hz)]
        · rw [if_pos hz]
          have h2 : ¬ e.port = q := by omega
          by_cases h1 : e.port > q
          · have h3 : ∀ x ∈ rest.map Entry.port, q < x := by
              intro x hx
              have := hs.1 x hx
              omega
            simp [l_get, h1, l_get_above q rest h3]
          · simp [l_get, h1, h2]
      · rw [l_remove, if_neg hg, if_neg he]
        simp only [l_get, ih hs.2]

theorem get_ip_add_ip_other (s : State) (hr : Reachable s) (n : Int) (hn : 0 ≤ n)
    (hf : shmat s.segs n = none) (p q ip : Nat) (hq : q ≠ p) :
    ∃ s1 v, add_ip s n p ip = .ret () s1 ∧ get_ip s q = .ret v s ∧
      get_ip s1 q = .ret v s1 := by
  obtain ⟨c, hc⟩ := hr.inv
  by_cases hip : ip = 0xFFFFFFFF
  · refine ⟨s, l_get q c, ?_, get_ip_spec s c hc q, get_ip_spec s c hc q⟩
    rw [add_ip, if_pos hip]
  · obtain ⟨s1, e1, e2, _⟩ := add_ip_spec s c hc n p ip hn hf hip
    refine ⟨s1, l_get q c, e1, get_ip_spec s c hc q, ?_⟩
    rw [get_ip_spec s1 _ e2 q, l_get_add_other n p q ip hq c]

theorem get_ip_remove_ip_other (s : State) (hr : Reachable s) (p q : Nat)
    (hp : p ≠ 0) (hq : q ≠ p) :
    ∃ s1 v, remove_ip s p = .ret () s1 ∧ get_ip s q = .ret v s ∧
      get_ip s1 q = .ret v s1 := by
  obtain ⟨c, hc⟩ := hr.inv
  obtain ⟨s1, e1, e2, _⟩ := remove_ip_spec s c hc p hp
  refine ⟨s1, l_get q c, e1, get_ip_spec s c hc q, ?_⟩
  rw [get_ip_spec s1 _ e2 q, l_get_remove_other p q hq c hc.sorted]

/-- C11, the code at a failing input: port 22 is stored, `get_ip(22)` returns
its ip; then `remove_ip(0)` destroys the head segment and faults, and in the
shared state it leaves `get_ip(22)` faults on the dead head instead of
returning the ip. -/
theorem remove_ip_zero_breaks_other_port :
    ∃ s1 s2, add_ip fresh_map 6 22 0x0A000002 = .ret () s1 ∧
      get_ip s1 22 = .ret 0x0A000002 s1 ∧
      after_call (remove_ip s1 0) = some s2 ∧
      get_ip s2 22 = .segv { s2 with semval := 0 } :=
  ⟨_, _, rfl, rfl, rfl, rfl⟩

/-! ## The lock -/

/-- Where the lock is released: in every state reached from `ip_map_init()`
the semaphore counter is 1; every call of `get_ip` and of `add_ip` made there
returns with the counter back at 1 (match, greater port, end of chain,
insertion), and so does every call of `remove_ip` for a port other than 0
(greater port, end of chain, match with or without removal). -/
theorem lock_released_where_calls_return (s : State) (hr : Reachable s) :
    s.semval = 1 ∧
      (∀ p, ∃ v s1, get_ip s p = .ret v s1 ∧ s1.semval = 1) ∧
      (∀ n p ip, 0 ≤ n → shmat s.segs n = none →
        ∃ s1, add_ip s n p ip = .ret () s1 ∧ s1.semval = 1) ∧
      (∀ p, p ≠ 0 → ∃ s1, remove_ip s p = .ret () s1 ∧ s1.semval = 1) := by
  obtain ⟨c, hc⟩ := hr.inv
  refine ⟨hc.sem_val, ?_, ?_, ?_⟩
  · intro p
    exact ⟨_, s, get_ip_spec s c hc p, hc.sem_val⟩
  · intro n p ip hn hf
    by_cases hip : ip = 0xFFFFFFFF
    · refine ⟨s, ?_, hc.sem_val⟩
      rw [add_ip, if_pos hip]
    · obtain ⟨s1, e1, e2, _⟩ := add_ip_spec s c hc n p ip hn hf hip
      exact ⟨s1, e1, e2.sem_val⟩
  · intro p hp
    obtain ⟨s1, e1, e2, _⟩ := remove_ip_spec s c hc p hp
    exact ⟨s1, e1, e2.sem_val⟩

/-- C12, the code at a failing input: port 22 is stored and the semaphore
counter is 1; `remove_ip(0)` takes the semaphore, matches the head with
`prev = -1`, which `if(prev)` takes as true, and faults on the failed
`shmat(-1)` before it reaches `sem_unlock()`: the call does not return and the
counter is 0, the lock held, when the process ends. -/
theorem remove_ip_zero_faults_with_lock_held :
    ∃ s1 s2, add_ip fresh_map 6 22 0x0A000002 = .ret () s1 ∧ s1.semval = 1 ∧
      sem_lock s1 = some (0, { s1 with semval := 0 }) ∧
      remove_ip s1 0 = .segv s2 ∧ s2.semval = 0 :=
  ⟨_, _, rfl, rfl, rfl, rfl, rfl⟩

/-! ## One lookup per cycle -/

theorem l_add_mem (n : Int) (p ip : Nat) (c : List Entry) :
    ∀ x ∈ l_add n p ip c, x ∈ c ∨ x.ip = ip := by
  induction c with
  | nil =>
    intro x hx
    simp only [l_add, List.mem_singleton] at hx
    subst hx
    exact Or.inr rfl
  | cons e rest ih =>
    intro x hx
    by_cases hg : e.port > p
    · rw [l_add, if_pos hg] at hx
      simp only [List.mem_cons] at hx ⊢
      rcases hx with hx | hx | hx
      · subst hx; exact Or.inr rfl
      · exact Or.inl (Or.inl hx)
      · exact Or.inl (Or.inr hx)
    · by_cases he : e.port = p
      · rw [l_add, if_neg hg, if_pos he] at hx
        simp only [List.mem_cons] at hx ⊢
        rcases hx with hx | hx
        · subst hx; exact Or.inr rfl
        · exact Or.inl (Or.inr hx)
      · rw [l_add, if_neg hg, if_neg he] at hx
        simp only [List.mem_cons] at hx ⊢
        rcases hx with hx | hx
        · exact Or.inl (Or.inl hx)
        · rcases ih x hx with h | h
          · exact Or.inl (Or.inr h)
          · exact Or.inr h

theorem l_get_mem (p : Nat) (c : List Entry) :
    l_get p c = 0 ∨ ∃ e ∈ c, l_get p c = e.ip := by
  induction c with
  | nil => exact Or.inl rfl
  | cons e rest ih =>
    by_cases hg : e.port > p
    · exact Or.inl (by simp [l_get, hg])
    · by_cases he : e.port = p
      · exact Or.inr ⟨e, List.mem_cons_self _ _, by simp [l_get, he]⟩
      · have h1 : l_get p (e :: rest) = l_get p rest := by simp [l_get, hg, he]
        rw [h1]
        rcases ih with h | ⟨x, hx, hxe⟩
        · exact Or.inl h
        · exact Or.inr ⟨x, List.mem_cons_of_mem _ hx, hxe⟩

theorem Reachable.inv_ips {s : State} (h : Reachable s) :
    ∃ c, Inv s c ∧ ∀ e ∈ c, e.ip < 2 ^ 32 ∧ e.ip ≠ 0xFFFFFFFF := by
  induction h with
  | init h sid s hh hs hi =>
    refine ⟨_, ip_map_init_inv h sid s hh hs hi, ?_⟩
    intro e he
    simp only [List.mem_singleton] at he
    subst he
    exact ⟨by show (0 : Nat) < 2 ^ 32; decide, by show (0 : Nat) ≠ 0xFFFFFFFF; decide⟩
  | add s s1 n p ip _ hn hf hlt ha ih =>
    obtain ⟨c, hc, hok⟩ := ih
    by_cases hip : ip = 0xFFFFFFFF
    · rw [add_ip, if_pos hip] at ha
      cases ha; exact ⟨c, hc, hok⟩
    · obtain ⟨s2, e1, e2, _⟩ := add_ip_spec s c hc n p ip hn hf hip
      rw [e1] at ha; cases ha
      refine ⟨_, e2, ?_⟩
      intro e he
      rcases l_add_mem n p ip c e he with h1 | h1
      · exact hok e h1
      · rw [h1]; exact ⟨hlt, hip⟩
  | remove s s1 p _ ha ih =>
    obtain ⟨c, hc, hok⟩ := ih
    by_cases hp : p = 0
    · subst hp
      rw [remove_ip_zero s c hc] at ha; cases ha
    · obtain ⟨s2, e1, e2, _⟩ := remove_ip_spec s c hc p hp
      rw [e1] at ha; cases ha
      exact ⟨_, e2, fun e he => hok e ((l_remove_sublist p c (-1)).subset he)⟩

theorem get_ip_known (s : State) (hr : Reachable s) (p : Nat) :
    ∃ v, get_ip s p = .ret v s ∧ v < 2 ^ 32 ∧ v ≠ 0xFFFFFFFF := by
  obtain ⟨c, hc, hok⟩ := hr.inv_ips
  refine ⟨l_get p c, get_ip_spec s c hc p, ?_⟩
  rcases l_get_mem p c with h | ⟨e, he, hv⟩
  · rw [h]; exact ⟨by decide, by decide⟩
  · rw [hv]; exact hok e he

theorem htonl_ne_unknown (v : Nat) (h1 : v < 2 ^ 32) (h2 : v ≠ 0xFFFFFFFF) :
    htonl v ≠ ip_unknown := by
  intro h
  simp only [htonl, ip_unknown, Bytes4.mk.injEq] at h
  omega

theorem resolve_resolved (q : map_queue) (s : State) (h : q.ip ≠ ip_unknown) :
    resolve q s = some (q, s) := by
  simp only [resolve, if_neg h]

theorem hcr_write_done (q : map_queue) (s : State) (rds : List ReadRes)
    (wrs : List WriteRes) (hr : q.size_r = 2) (hw : q.size_w = 4)
    (hq : q.ip ≠ ip_unknown) :
    handle_connection q s rds wrs =
      { ret := .one, q := { q with size_r := 0, size_w := 0, ip := ip_unknown },
        s := s, rds := rds, wrs := wrs, out := [] } := by
  simp only [handle_connection, read_loop_full rds q hr, resolve_resolved q s hq,
    write_loop_full wrs q hw]

theorem hcr_write_eagain (q : map_queue) (s : State) (rds : List ReadRes)
    (rest : List WriteRes) (k : Nat) (hr : q.size_r = 2) (hw : q.size_w = k)
    (hk : k < 4) (hq : q.ip ≠ ip_unknown) :
    handle_connection q s rds (.err .EAGAIN :: rest) =
      { ret := .FD_STALLED, q := q, s := s, rds := rds, wrs := rest, out := [] } := by
  simp only [handle_connection, read_loop_full rds q hr, resolve_resolved q s hq,
    write_loop_eagain rest q k hw hk]

theorem hcr_write_room (q : map_queue) (s : State) (rds : List ReadRes)
    (rest : List WriteRes) (k n : Nat) (hr : q.size_r = 2) (hw : q.size_w = k)
    (hk : k < 4) (hn : k + n ≤ 4) (hq : q.ip ≠ ip_unknown) :
    handle_connection q s rds (.room n :: rest) =
      { handle_connection { q with size_w := ((k + n : Nat) : Int) } s rds rest with
        out := (q.ip.toList.drop k).take n ++
          (handle_connection { q with size_w := ((k + n : Nat) : Int) } s rds rest).out } := by
  have hr1 : ({ q with size_w := ((k + n : Nat) : Int) } : map_queue).size_r = 2 := hr
  have hres := resolve_resolved { q with size_w := ((k + n : Nat) : Int) } s hq
  simp only [handle_connection, read_loop_full rds q hr, resolve_resolved q s hq,
    write_loop_room rest q k n hw hk hn, read_loop_full rds _ hr1, hres]
  rcases write_loop rest { q with size_w := ((k + n : Nat) : Int) }
    with ⟨r, q3, w1, o⟩
  cases r <;> rfl

theorem hc_first_lookup (q : map_queue) (s s1 : State) (rds : List ReadRes)
    (wrs : List WriteRes) (v : Nat) (hr : q.size_r = 2) (hq : q.ip = ip_unknown)
    (hg : get_ip s (ntohs q.port) = .ret v s1) (hv : htonl v ≠ ip_unknown) :
    handle_connection q s rds wrs =
      handle_connection { q with ip := htonl v } s rds wrs := by
  have hr1 : ({ q with ip := htonl v } : map_queue).size_r = 2 := hr
  have hres := resolve_resolved { q with ip := htonl v } s hv
  simp only [handle_connection, read_loop_full rds q hr,
    resolve_known q s s1 v hg (Or.inl hq), read_loop_full rds _ hr1, hres]

theorem sc_congr (ss : List State) (s : State) (q q1 : map_queue)
    (rds rds1 : List ReadRes) (wrs wrs1 : List WriteRes)
    (h : handle_connection q s rds wrs = handle_connection q1 s rds1 wrs1) :
    serve_changing ss s q rds wrs = serve_changing ss s q1 rds1 wrs1 := by
  cases ss <;> simp only [serve_changing, h]

theorem sc_prepend (ss : List State) (s : State) (q q1 : map_queue)
    (rds rds1 : List ReadRes) (wrs wrs1 : List WriteRes) (pre : List Nat)
    (h : handle_connection q s rds wrs =
      { handle_connection q1 s rds1 wrs1 with
        out := pre ++ (handle_connection q1 s rds1 wrs1).out }) :
    serve_changing ss s q rds wrs =
      { serve_changing ss s q1 rds1 wrs1 with
        out := pre ++ (serve_changing ss s q1 rds1 wrs1).out } := by
  cases ss with
  | nil => simp only [serve_changing, h]
  | cons s2 more =>
    simp only [serve_changing, h]
    rcases handle_connection q1 s rds1 wrs1 with ⟨r, q2, s3, r2, w2, o2⟩
    cases r <;> simp only [List.append_assoc]

theorem sc_one (ss : List State) (s : State) (q : map_queue)
    (rds : List ReadRes) (wrs : List WriteRes) (o : HcOut)
    (h : handle_connection q s rds wrs = o) (ho : o.ret = .one) :
    serve_changing ss s q rds wrs = o := by
  cases ss with
  | nil => simp only [serve_changing, h]
  | cons s2 more => simp only [serve_changing, h, ho]

theorem sc_write (rds : List ReadRes) :
    ∀ (wrs : List WriteRes) (ss : List State) (s : State) (q : map_queue) (k m : Nat),
    q.size_r = 2 → q.size_w = k → q.ip ≠ ip_unknown → write_room wrs = some m →
    k + m = 4 → wrs.length ≤ ss.length →
    ∃ sf wrs1, serve_changing ss s q rds wrs =
      { ret := .one, q := { q with size_r := 0, size_w := 0, ip := ip_unknown },
        s := sf, rds := rds, wrs := wrs1, out := q.ip.toList.drop k } := by
  intro wrs
  induction wrs with
  | nil =>
    intro ss s q k m hr hw hq hm hkm _
    simp only [write_room, Option.some.injEq] at hm
    have hk : k = 4 := by omega
    subst hk
    refine ⟨s, [], ?_⟩
    rw [sc_one ss s q rds [] _ (hcr_write_done q s rds [] hr hw hq) rfl]
    rfl
  | cons w rest ih =>
    intro ss s q k m hr hw hq hm hkm hl
    by_cases hk : k = 4
    · subst hk
      refine ⟨s, w :: rest, ?_⟩
      rw [sc_one ss s q rds (w :: rest) _ (hcr_write_done q s rds _ hr hw hq) rfl]
      rfl
    · have hk4 : k < 4 := by omega
      cases w with
      | room n =>
        simp only [write_room] at hm
        cases hmr : write_room rest with
        | none => rw [hmr] at hm; cases hm
        | some more =>
          rw [hmr] at hm
          simp only [Option.some.injEq] at hm
          have hn : k + n ≤ 4 := by omega
          have hl1 : rest.length ≤ ss.length := by
            simp only [List.length_cons] at hl; omega
          obtain ⟨sf, wrs1, e1⟩ := ih ss s { q with size_w := ((k + n : Nat) : Int) }
            (k + n) more hr rfl hq hmr (by omega) hl1
          refine ⟨sf, wrs1, ?_⟩
          rw [sc_prepend ss s q _ rds rds _ rest _
            (hcr_write_room q s rds rest k n hr hw hk4 hn hq), e1]
          simp only [HcOut.mk.injEq, true_and]
          rw [← List.drop_drop, List.take_append_drop]
      | err e =>
        cases e with
        | EAGAIN =>
          simp only [write_room] at hm
          cases ss with
          | nil => simp at hl
          | cons s2 more =>
            have hl1 : rest.length ≤ more.length := by
              simp only [List.length_cons] at hl; omega
            obtain ⟨sf, wrs1, e1⟩ := ih more s2 q k m hr hw hq hm hkm hl1
            refine ⟨sf, wrs1, ?_⟩
            simp only [serve_changing, hcr_write_eagain q s rds rest k hr hw hk4 hq, e1,
              List.nil_append]
        | ECONNRESET => simp [write_room] at hm
        | EPIPE => simp [write_room] at hm
        | other => simp [write_room] at hm

theorem read_stalls_zero (rds : List ReadRes) : read_stalls rds 0 = 0 := by
  cases rds with
  | nil => rfl
  | cons r rest =>
    cases r with
    | data bs => simp [read_stalls]
    | err e => cases e <;> simp [read_stalls]

theorem sc_read (s0 s1 : State) (v : Nat) (hv : htonl v ≠ ip_unknown)
    (wrs : List WriteRes) (hw : write_room wrs = some 4) :
    ∀ (rds : List ReadRes) (ss : List State) (s : State) (q : map_queue) (k : Nat)
      (bs : List Nat),
    q.size_r = k → k < 2 → q.size_w = 0 → q.ip = ip_unknown →
    read_data rds = some bs → k + bs.length = 2 →
    (s :: ss)[read_stalls rds (2 - k)]? = some s0 →
    get_ip s0 (ntohs (buf_store q.port k bs)) = .ret v s1 →
    read_stalls rds (2 - k) + wrs.length ≤ ss.length →
    ∃ sf rds1 wrs1, serve_changing ss s q rds wrs =
      { ret := .one,
        q := { q with port := buf_store q.port k bs, size_r := 0, size_w := 0,
                      ip := ip_unknown },
        s := sf, rds := rds1, wrs := wrs1, out := (htonl v).toList } := by
  intro rds
  induction rds with
  | nil =>
    intro ss s q k bs _ hk _ _ hd hkb _ _ _
    simp only [read_data, Option.some.injEq] at hd
    subst hd
    simp at hkb
    omega
  | cons r rest ih =>
    intro ss s q k bs hr hk hsw hip hd hkb hidx hg hl
    have hneed : ¬ (2 - k = 0) := by omega
    cases r with
    | data chunk =>
      cases chunk with
      | nil => simp [read_data] at hd
      | cons b bs1 =>
        simp only [read_data] at hd
        cases hmr : read_data rest with
        | none => rw [hmr] at hd; cases hd
        | some more =>
          rw [hmr] at hd
          simp only [Option.some.injEq] at hd
          subst hd
          have hlen : k + (b :: bs1).length + more.length = 2 := by
            simp only [List.length_cons, List.length_append] at hkb ⊢; omega
          have hst : read_stalls (.data (b :: bs1) :: rest) (2 - k) =
              read_stalls rest (2 - (k + (b :: bs1).length)) := by
            simp only [read_stalls, if_neg hneed]
            congr 1
            omega
          rw [hst] at hidx hl
          have hstep : serve_changing ss s q (.data (b :: bs1) :: rest) wrs =
              serve_changing ss s
                { q with port := buf_store q.port k (b :: bs1),
                         size_r := ((k + (b :: bs1).length : Nat) : Int) }
                rest wrs :=
            sc_congr ss s q _ _ rest wrs wrs
              (hc_read_data q s rest wrs k (b :: bs1) hr (List.cons_ne_nil _ _) (by omega))
          rw [hstep]
          by_cases hk2 : k + (b :: bs1).length < 2
          · obtain ⟨sf, rds1, wrs1, e1⟩ := ih ss s
                { q with port := buf_store q.port k (b :: bs1),
                         size_r := ((k + (b :: bs1).length : Nat) : Int) }
                (k + (b :: bs1).length) more rfl hk2 hsw hip hmr hlen hidx
                (by rw [buf_store_append]; exact hg) hl
            refine ⟨sf, rds1, wrs1, ?_⟩
            rw [e1]
            simp only [buf_store_append]
          · have hm0 : more = [] := List.length_eq_zero.mp (by omega)
            subst hm0
            have hk3 : ((k + (b :: bs1).length : Nat) : Int) = 2 := by
              have : k + (b :: bs1).length = 2 := by omega
              rw [this]; rfl
            have hz : 2 - (k + (b :: bs1).length) = 0 := by omega
            rw [hz, read_stalls_zero] at hidx hl
            have hs0 : s = s0 := by simpa using hidx
            subst hs0
            have hg1 : get_ip s (ntohs (buf_store q.port k (b :: bs1))) = .ret v s1 := by
              simpa using hg
            rw [sc_congr ss s _ _ rest rest wrs wrs
              (hc_first_lookup
                { q with port := buf_store q.port k (b :: bs1),
                         size_r := ((k + (b :: bs1).length : Nat) : Int) }
                s s1 rest wrs v hk3 hip hg1 hv)]
            obtain ⟨sf, wrs1, e1⟩ := sc_write rest wrs ss s
                { q with port := buf_store q.port k (b :: bs1),
                         size_r := ((k + (b :: bs1).length : Nat) : Int),
                         ip := htonl v }
                0 4 hk3 hsw hv hw rfl (by omega)
            refine ⟨sf, rest, wrs1, ?_⟩
            rw [e1]
            simp
    | err e =>
      cases e with
      | EAGAIN =>
        simp only [read_data] at hd
        have hst : read_stalls (.err .EAGAIN :: rest) (2 - k) =
            read_stalls rest (2 - k) + 1 := by
          simp only [read_stalls, if_neg hneed]
        rw [hst] at hidx hl
        cases ss with
        | nil => simp at hl
        | cons s2 more =>
          have hidx1 : (s2 :: more)[read_stalls rest (2 - k)]? = some s0 := by
            simpa using hidx
          have hl1 : read_stalls rest (2 - k) + wrs.length ≤ more.length := by
            simp only [List.length_cons] at hl; omega
          obtain ⟨sf, rds1, wrs1, e1⟩ := ih more s2 q k bs hr hk hsw hip hd hkb hidx1 hg hl1
          refine ⟨sf, rds1, wrs1, ?_⟩
          simp only [serve_changing, hc_read_eagain q s rest wrs k hr hk, e1,
            List.nil_append]
      | ECONNRESET => simp [read_data] at hd
      | EPIPE => simp [read_data] at hd
      | other => simp [read_data] at hd

/-- C13. One lookup per cycle: in every map state reached from `ip_map_init()`
by `add_ip`/`remove_ip`, `get_ip` returns, and never `0xFFFFFFFF`, so the ip
buffer `htonl` of its result differs from the `0xFFFFFFFF` marker. Hence in a
cycle whose calls of `handle_connection` meet the map states `s :: ss` (any
states at all, one per call), `s0` being the state met by the call in which
the request completes: the cycle ends with `return 1` and the four bytes
written, over all the calls, are those of `get_ip(p)` in `s0`, whatever the
map has become when a stalled write is resumed. -/
theorem one_lookup_per_cycle (s0 : State) (hr : Reachable s0) (p : Nat)
    (hp : p < 65536) (q : map_queue) (hq_r : q.size_r = 0) (hq_w : q.size_w = 0)
    (hq_ip : q.ip = ip_unknown) (rds : List ReadRes) (wrs : List WriteRes)
    (hrd : read_data rds = some (request p)) (hwr : write_room wrs = some 4)
    (s : State) (ss : List State)
    (hs0 : (s :: ss)[read_stalls rds 2]? = some s0)
    (hlen : read_stalls rds 2 + wrs.length ≤ ss.length) :
    (∀ p1, ∃ v1, get_ip s0 p1 = .ret v1 s0 ∧ v1 ≠ 0xFFFFFFFF ∧
        htonl v1 ≠ ip_unknown) ∧
      ∃ v, get_ip s0 p = .ret v s0 ∧
        (serve_changing ss s q rds wrs).ret = .one ∧
        (serve_changing ss s q rds wrs).out = (htonl v).toList := by
  constructor
  · intro p1
    obtain ⟨v1, e1, e2, e3⟩ := get_ip_known s0 hr p1
    exact ⟨v1, e1, e3, htonl_ne_unknown v1 e2 e3⟩
  · obtain ⟨v, e1, e2, e3⟩ := get_ip_known s0 hr p
    obtain ⟨sf, rds1, wrs1, e4⟩ := sc_read s0 s0 v (htonl_ne_unknown v e2 e3) wrs hwr
      rds ss s q 0 (request p) hq_r (by decide) hq_w hq_ip hrd rfl hs0
      (by rw [ntohs_request q.port p hp]; exact e1) hlen
    refine ⟨v, e1, ?_, ?_⟩
    · rw [e4]
    · rw [e4]

/-- Witness of C13: the request for port 22 completes in the second call, on
`ssh_map` (22 mapped to `0x01020304`); the write stalls and is resumed on
`two_port_map`, where 22 is mapped to `0x0A000002`. -/
theorem one_lookup_per_cycle_witness :
    (∀ p1, ∃ v1, get_ip ssh_map p1 = .ret v1 ssh_map ∧ v1 ≠ 0xFFFFFFFF ∧
        htonl v1 ≠ ip_unknown) ∧
      ∃ v, get_ip ssh_map 22 = .ret v ssh_map ∧
        (serve_changing [ssh_map, two_port_map, fresh_map, fresh_map] fresh_map (new_map_queue 3)
          [.data [0], .err .EAGAIN, .data [22]]
          [.room 2, .err .EAGAIN, .room 2]).ret = .one ∧
        (serve_changing [ssh_map, two_port_map, fresh_map, fresh_map] fresh_map (new_map_queue 3)
          [.data [0], .err .EAGAIN, .data [22]]
          [.room 2, .err .EAGAIN, .room 2]).out = (htonl v).toList :=
  one_lookup_per_cycle ssh_map
    (Reachable.add fresh_map ssh_map 6 22 0x01020304
      (Reachable.init 5 7 fresh_map (by decide) (by decide) rfl) (by decide) rfl
      (by decide) rfl)
    22 (by decide) (new_map_queue 3) rfl rfl rfl
    [.data [0], .err .EAGAIN, .data [22]] [.room 2, .err .EAGAIN, .room 2] rfl rfl
    fresh_map
    [ssh_map, two_port_map, fresh_map, fresh_map] rfl (by decide)

end IpMap
